import Mathlib

/-! # Shamir-style secret reconstruction: a verification development

Shallow embedding of `Shamir_secret_22CS109.cpp`.

* `cpp_int` is modelled by `Int` (unbounded, as in the source).
* `cpp_int` division and remainder truncate toward zero: `Int.tdiv`, `Int.tmod`.
* `int` share coordinates are converted to `cpp_int` before any arithmetic in the
  source, so they are modelled by `Int` as well.
* The `while` loop of `igcd` is driven by a step budget of `|b| + 1` iterations;
  `Fraction.igcd_eq_gcd` shows that the budget is never exhausted.
* `std::string` is modelled by `String`, read as its list of characters, and
  `throw runtime_error(..)` by `Except.error` with the same message.
-/

/-- The source's `struct Fraction`: numerator and denominator, both `cpp_int`. -/
structure Fraction where
  num : Int
  den : Int
deriving DecidableEq

namespace Fraction

/-- The one-argument constructor `Fraction(const cpp_int& n)`: `num(n), den(1)`. -/
def ofInt (n : Int) : Fraction := { num := n, den := 1 }

/-- The `while (b != 0) { t = a % b; a = b; b = t; }` loop of `igcd`, with a step budget. -/
def igcdLoop : Nat → Int → Int → Int
  | 0, a, _ => a
  | steps + 1, a, b => if b ≠ 0 then igcdLoop steps b (Int.tmod a b) else a

/-- The source's `Fraction::igcd`. -/
def igcd (a b : Int) : Int :=
  let a1 := if a < 0 then -a else a
  let b1 := if b < 0 then -b else b
  igcdLoop (b1.toNat + 1) a1 b1

/-- The source's `Fraction::normalize`, as a function on the pair. -/
def normalize (f : Fraction) : Fraction :=
  let f1 : Fraction := if f.den < 0 then { num := -f.num, den := -f.den } else f
  if f1.num = 0 then { num := f1.num, den := 1 }
  else
    let g := igcd f1.num f1.den
    if g ≠ 0 then { num := Int.tdiv f1.num g, den := Int.tdiv f1.den g } else f1

/-- The two-argument constructor `Fraction(n, d)`, i.e. `set(n, d)`. -/
def mk2 (n d : Int) : Fraction := normalize { num := n, den := d }

/-- The source's `Fraction::add`. -/
def add (a b : Fraction) : Fraction :=
  normalize { num := a.num * b.den + b.num * a.den, den := a.den * b.den }

/-- The source's `Fraction::sub`. -/
def sub (a b : Fraction) : Fraction :=
  normalize { num := a.num * b.den - b.num * a.den, den := a.den * b.den }

/-- The source's `Fraction::mul`. -/
def mul (a b : Fraction) : Fraction :=
  normalize { num := a.num * b.num, den := a.den * b.den }

/-- The source's `Fraction::div`. -/
def div (a b : Fraction) : Fraction :=
  normalize { num := a.num * b.den, den := a.den * b.num }

/-- The source's `Fraction::isInteger`. -/
def isInteger (a : Fraction) : Bool := a.den == 1

end Fraction

/-- The source's `struct Share`. Only `x` and `y` are read by the search. -/
structure Share where
  x : Int
  base : Int
  sval : String
  y : Int
deriving DecidableEq

/-- The source's `lagrange_lambda_at_zero(xs, i)`. -/
def lagrange_lambda_at_zero (xs : List Int) (i : Nat) : Fraction :=
  (List.range xs.length).foldl
    (fun lam j =>
      if j = i then lam
      else Fraction.mul lam (Fraction.mk2 (-(xs.getD j 0)) (xs.getD i 0 - xs.getD j 0)))
    (Fraction.ofInt 1)

/-- The source's `interpolate_P0(xs, ys)`. -/
def interpolate_P0 (xs : List Int) (ys : List Int) : Fraction :=
  (List.range xs.length).foldl
    (fun sum i =>
      Fraction.add sum (Fraction.mul (Fraction.ofInt (ys.getD i 0)) (lagrange_lambda_at_zero xs i)))
    (Fraction.ofInt 0)

/-- The inner `j` loop of `interpolate_eval`: the basis value `l_i(xq)`. -/
def lagrange_basis_at (xs : List Int) (xq : Int) (i : Nat) : Fraction :=
  (List.range xs.length).foldl
    (fun li j =>
      if i = j then li
      else Fraction.mul li (Fraction.mk2 (xq - xs.getD j 0) (xs.getD i 0 - xs.getD j 0)))
    (Fraction.ofInt 1)

/-- The first loop of `interpolate_eval`: the first `i` with `xq == xs[i]`, if any. -/
def findHit (xs : List Int) (xq : Int) : Option Nat :=
  (List.range xs.length).find? (fun i => xq == xs.getD i 0)

/-- The source's `interpolate_eval(xs, ys, xq)`. -/
def interpolate_eval (xs : List Int) (ys : List Int) (xq : Int) : Fraction :=
  match findHit xs xq with
  | some i => Fraction.ofInt (ys.getD i 0)
  | none =>
    (List.range xs.length).foldl
      (fun sum i =>
        Fraction.add sum (Fraction.mul (Fraction.ofInt (ys.getD i 0)) (lagrange_basis_at xs xq i)))
      (Fraction.ofInt 0)

/-- The search's shared accumulator: `bestSecret`, `bestInliers`, `bestSubset`,
`bestInlierMask` of `main`. -/
structure Best where
  bestSecret : Int
  bestInliers : Int
  bestSubset : List Nat
  bestInlierMask : List Int
deriving DecidableEq

/-- The initial values: `bestSecret = 0`, `bestInliers = -1`, both vectors empty. -/
def Best.init : Best :=
  { bestSecret := 0, bestInliers := -1, bestSubset := [], bestInlierMask := [] }

/-- The value read by `shares[pos]`. -/
def shareAt (shares : List Share) (pos : Nat) : Share :=
  shares.getD pos { x := 0, base := 0, sval := "", y := 0 }

/-- One iteration `t` of the inlier loop of `dfs`, on the pair `(inliers, inlierMask)`. -/
def inlierStep (shares : List Share) (xs ys : List Int) (acc : Int × List Int) (t : Nat) :
    Int × List Int :=
  let val := interpolate_eval xs ys (shareAt shares t).x
  if val.den = 0 then acc
  else if val.den ≠ 1 then acc
  else if val.num = (shareAt shares t).y then (acc.1 + 1, acc.2.set t 1)
  else acc

/-- The inlier loop of `dfs`: `inliers = 0`, `inlierMask(shares.size(), 0)`, then every `t`. -/
def countInliers (shares : List Share) (xs ys : List Int) : Int × List Int :=
  (List.range shares.length).foldl (inlierStep shares xs ys)
    (0, List.replicate shares.length 0)

/-- The `need == 0` block of `dfs`: evaluate the subset held in `cur`. -/
def evalSubset (shares : List Share) (cur : List Nat) (st : Best) : Best :=
  let xs := cur.map (fun pos => (shareAt shares pos).x)
  let ys := cur.map (fun pos => (shareAt shares pos).y)
  let p0 := interpolate_P0 xs ys
  if !p0.isInteger then st
  else
    let secret := p0.num
    let sc := countInliers shares xs ys
    if sc.1 > st.bestInliers then
      { bestSecret := secret, bestInliers := sc.1, bestSubset := cur, bestInlierMask := sc.2 }
    else st

/-- The source's recursive lambda `dfs(start, need)`, with `cur` and the accumulator passed
explicitly and a budget on the recursion depth (`dfs_budget` shows it is never exhausted). -/
def dfs (shares : List Share) (idxs : List Nat) :
    Nat → Nat → Int → List Nat → Best → Best
  | 0, _, _, _, st => st
  | depth + 1, start, need, cur, st =>
    if (cur.length : Int) + (idxs.length : Int) - (start : Int) < need then st
    else if need = 0 then evalSubset shares cur st
    else
      (List.range' start (idxs.length - start)).foldl
        (fun s i => dfs shares idxs depth (i + 1) (need - 1) (cur ++ [idxs.getD i 0]) s) st

/-- The state of the accumulator after `dfs(0, k)`, with `idxs = 0, 1, .., n-1`. -/
def search (shares : List Share) (k : Int) : Best :=
  dfs shares (List.range shares.length) (shares.length + 1) 0 k [] Best.init

/-- The output loop of `main`: the `x` of every position whose mask entry is `0`. -/
def wrongList (shares : List Share) (mask : List Int) : List Int :=
  (List.range shares.length).foldl
    (fun out i => if !mask.isEmpty && mask.getD i 0 == 0 then out ++ [(shareAt shares i).x] else out)
    []

/-- What `main` does once the shares are read. -/
inductive RunResult where
  | notEnoughShares : RunResult
  | printed (secret : Int) (wrong : List Int) : RunResult
deriving DecidableEq

/-- The part of `main` after ingestion: the share-count check, the search and the output. -/
def reconstruct (shares : List Share) (k : Int) : RunResult :=
  if (shares.length : Int) < k then RunResult.notEnoughShares
  else
    let st := search shares k
    RunResult.printed st.bestSecret (wrongList shares st.bestInlierMask)

/-- A share with coordinate `x` and value `y` (its literal is not read by the search). -/
def mkShare (x y : Int) : Share := { x := x, base := 10, sval := "", y := y }

namespace Fraction

/-- The canonical pair of a rational number. -/
def ofRat (q : ℚ) : Fraction := { num := q.num, den := (q.den : Int) }

end Fraction

/-- Value at `x` of the integer polynomial with coefficient list `cs`, constant term first. -/
def polyEval : List Int → Int → Int
  | [], _ => 0
  | c :: cs, x => c + x * polyEval cs x

/-- The `sum` loop shared by `interpolate_P0` (at `xq = 0`) and `interpolate_eval`. -/
def lagrangeSum (xs ys : List Int) (xq : Int) : Fraction :=
  (List.range xs.length).foldl
    (fun sum i =>
      Fraction.add sum (Fraction.mul (Fraction.ofInt (ys.getD i 0)) (lagrange_basis_at xs xq i)))
    (Fraction.ofInt 0)

/-- The rational factor contributed by index `j` to the basis value `l_i(q)`. -/
def basisFactor (xs : List Int) (q : Int) (i j : Nat) : ℚ :=
  if i = j then 1 else ((q : ℚ) - (xs.getD j 0 : ℚ)) / ((xs.getD i 0 : ℚ) - (xs.getD j 0 : ℚ))

/-- The test of the inlier loop: the value at the share's `x` is an integer equal to its `y`. -/
def isInlier (xs ys : List Int) (p : Share) : Bool :=
  decide ((interpolate_eval xs ys p.x).den = 1 ∧ (interpolate_eval xs ys p.x).num = p.y)

/-- The coordinates `xs` that `dfs` builds from the positions in `cur`. -/
def subsetXs (shares : List Share) (s : List Nat) : List Int :=
  s.map (fun pos => (shareAt shares pos).x)

/-- The values `ys` that `dfs` builds from the positions in `cur`. -/
def subsetYs (shares : List Share) (s : List Nat) : List Int :=
  s.map (fun pos => (shareAt shares pos).y)

/-- A subset survives the integer-secret filter. -/
def validSubset (shares : List Share) (s : List Nat) : Prop :=
  (interpolate_P0 (subsetXs shares s) (subsetYs shares s)).isInteger = true

instance (shares : List Share) (s : List Nat) : Decidable (validSubset shares s) := by
  unfold validSubset; infer_instance

/-- The inlier count of a subset: the first component of the inlier loop's result. -/
def inlierCount (shares : List Share) (s : List Nat) : Int :=
  (countInliers shares (subsetXs shares s) (subsetYs shares s)).1

/-- The inlier mask of a subset: the second component of the inlier loop's result. -/
def inlierMask (shares : List Share) (s : List Nat) : List Int :=
  (countInliers shares (subsetXs shares s) (subsetYs shares s)).2

/-- A size-`k` subset: a strictly increasing tuple of `k` positions below `n`. -/
def IsSubset (n : Nat) (k : Int) (s : List Nat) : Prop :=
  (s.length : Int) = k ∧ s.Pairwise (· < ·) ∧ ∀ p ∈ s, p < n

/-- The accumulator written when a subset wins. -/
def candidate (shares : List Share) (s : List Nat) : Best :=
  { bestSecret := (interpolate_P0 (subsetXs shares s) (subsetYs shares s)).num
    bestInliers := inlierCount shares s
    bestSubset := s
    bestInlierMask := inlierMask shares s }

/-- All `k`-element sublists of a list, in the order `dfs` visits them. -/
def combos : Nat → List Nat → List (List Nat)
  | 0, _ => [[]]
  | _ + 1, [] => []
  | k + 1, a :: l => (combos k l).map (fun s => a :: s) ++ combos (k + 1) l

/-- The subsets visited for a signed `need`: none when it is negative. -/
def combosInt (need : Int) (l : List Nat) : List (List Nat) :=
  if need < 0 then [] else combos need.toNat l

namespace Fraction

/-- A pair with denominator `0`, as `normalize` leaves it: numerator `1` or `-1`. -/
def IsInf (f : Fraction) : Prop := f.den = 0 ∧ (f.num = 1 ∨ f.num = -1)

/-- The pairs the arithmetic can produce: canonical pairs and pairs with denominator `0`. -/
def Good (f : Fraction) : Prop := (∃ q : ℚ, f = ofRat q) ∨ IsInf f

end Fraction

/-- Position `i` contributes a term with denominator `0` to `interpolate_P0`: `ys[i]` is not
zero, `xs[i]` occurs at another position, and no other position holds `x = 0`. -/
def infTerm (xs ys : List Int) (i : Nat) : Bool :=
  decide (ys.getD i 0 ≠ 0) &&
  ((List.range xs.length).any (fun j => decide (j ≠ i) && decide (xs.getD j 0 = xs.getD i 0)) &&
   (List.range xs.length).all (fun j => decide (j = i) || decide (xs.getD j 0 ≠ 0)))

instance (n : Nat) (k : Int) (s : List Nat) : Decidable (IsSubset n k s) := by
  unfold IsSubset; infer_instance

/-- Scenario A of the specification: four shares of `P(x) = 5 + 2x`. -/
def scenarioA : List Share := [mkShare 1 7, mkShare 2 9, mkShare 3 11, mkShare 4 13]

/-- Scenario B of the specification: scenario A with `(3, 11)` replaced by `(3, 999)`. -/
def scenarioB : List Share := [mkShare 1 7, mkShare 2 9, mkShare 3 999, mkShare 4 13]

/-- Two shares at `x = 1` and `x = 3` whose line has a fractional value at zero. -/
def fractionalShares : List Share := [mkShare 1 0, mkShare 3 1]

/-- Two shares with the same `x`. -/
def coincidentShares : List Share := [mkShare 1 1, mkShare 1 1]

namespace Fraction

/-- The source's `Fraction::operator==`: both fields equal. -/
def opEq (a o : Fraction) : Bool := a.num == o.num && a.den == o.den

/-- Canonical form: denominator at least `1`, lowest terms, and zero stored as `(0, 1)`. -/
def Canonical (f : Fraction) : Prop :=
  1 ≤ f.den ∧ Int.gcd f.num f.den = 1 ∧ (f.num = 0 → f.den = 1)

instance (f : Fraction) : Decidable (Canonical f) := by
  unfold Canonical; infer_instance

/-- The rational number a pair stands for: `num / den` in `ℚ`. -/
def val (f : Fraction) : ℚ := (f.num : ℚ) / (f.den : ℚ)

end Fraction

/-- The source's `digitVal`. -/
def digitVal (c : Char) : Int :=
  if '0' ≤ c ∧ c ≤ '9' then (c.toNat : Int) - ('0'.toNat : Int)
  else if 'a' ≤ c ∧ c ≤ 'z' then 10 + ((c.toNat : Int) - ('a'.toNat : Int))
  else if 'A' ≤ c ∧ c ≤ 'Z' then 10 + ((c.toNat : Int) - ('A'.toNat : Int))
  else -1

/-- The `for (char c : s)` loop of `parseBase`, on the characters still to read and `val`;
the `throw` is the error result. -/
def parseBaseLoop (base : Int) : List Char → Int → Except String Int
  | [], val => Except.ok val
  | c :: rest, val =>
    if c = '_' ∨ c = ' ' then parseBaseLoop base rest val
    else
      if digitVal c < 0 ∨ digitVal c ≥ base then Except.error "Invalid digit for base"
      else parseBaseLoop base rest (val * base + digitVal c)

/-- The source's `parseBase(s, base)`. -/
def parseBase (s : String) (base : Int) : Except String Int :=
  parseBaseLoop base s.toList 0

/-- A separator character of a literal: underscore or space. -/
def isSeparator (c : Char) : Bool := c == '_' || c == ' '

/-- The digit value of a character as the specification words it: `0`-`9` for the decimal
digits, `10`-`35` for the letters in either case, none for any other character. -/
def specDigit (c : Char) : Option Nat :=
  if c.isDigit then some (c.toNat - 48)
  else if c.isLower then some (10 + (c.toNat - 97))
  else if c.isUpper then some (10 + (c.toNat - 65))
  else none

/-- The digits of a literal once its separators are dropped, most significant first. -/
def literalDigits (l : List Char) : List Nat :=
  (l.filter (fun c => !isSeparator c)).filterMap specDigit

/-- A literal is invalid for a base: some non-separator character has no digit value or a
digit value that is at least the base. -/
def invalidLiteral (l : List Char) (base : Int) : Prop :=
  ∃ c ∈ l, isSeparator c = false ∧
    (specDigit c = none ∨ ∃ d, specDigit c = some d ∧ base ≤ (d : Int))

/-- The integer written by a digit list in a base, most significant digit first. -/
def positional (base : Int) : List Nat → Int
  | [] => 0
  | d :: ds => (d : Int) * base ^ ds.length + positional base ds

/-- The source's `dfs(start, need)` with the `need == 0` block replaced by recording `cur`:
the list of subsets with which the search reaches its evaluation step, in order. With
`prune = true` the first line is the source's pruning test; with `prune = false` it is left
out. -/
def dfsVisits (idxs : List Nat) (prune : Bool) :
    Nat → Nat → Int → List Nat → List (List Nat) → List (List Nat)
  | 0, _, _, _, acc => acc
  | depth + 1, start, need, cur, acc =>
    if prune = true ∧ (cur.length : Int) + (idxs.length : Int) - (start : Int) < need then acc
    else if need = 0 then acc ++ [cur]
    else
      (List.range' start (idxs.length - start)).foldl
        (fun a i => dfsVisits idxs prune depth (i + 1) (need - 1) (cur ++ [idxs.getD i 0]) a)
        acc

/-- The subsets evaluated by `dfs(0, k)` on `n` shares, in order. -/
def visits (n : Nat) (k : Int) : List (List Nat) :=
  dfsVisits (List.range n) true (n + 1) 0 k [] []

/-- The subsets `dfs(0, k)` would evaluate without its pruning test. -/
def visitsUnpruned (n : Nat) (k : Int) : List (List Nat) :=
  dfsVisits (List.range n) false (n + 1) 0 k [] []

/-- Five shares of `P(x) = 5 + 2x`, the third one corrupted. -/
def majorityShares : List Share :=
  [mkShare 1 7, mkShare 2 9, mkShare 3 999, mkShare 4 13, mkShare 5 15]

/-! ## Exact arithmetic -/

namespace Fraction

theorem igcdLoop_nat (steps : Nat) : ∀ (m n : Nat), n < steps →
    igcdLoop steps (m : Int) (n : Int) = ((Nat.gcd m n : Nat) : Int) := by
  induction steps with
  | zero => intro m n h; omega
  | succ s ih =>
    intro m n h
    rcases Nat.eq_zero_or_pos n with h0 | hpos
    · subst h0; simp [igcdLoop]
    · have hne : (n : Int) ≠ 0 := by omega
      have hlt : m % n < s := by
        have := Nat.mod_lt m hpos
        omega
      rw [igcdLoop, if_pos hne, ← Int.ofNat_tmod, ih n (m % n) hlt]
      rw [Nat.gcd_comm n (m % n), ← Nat.gcd_rec, Nat.gcd_comm]

theorem igcd_eq_gcd (a b : Int) : igcd a b = ((Int.gcd a b : Nat) : Int) := by
  have ha : (if a < 0 then -a else a) = ((a.natAbs : Nat) : Int) := by
    split <;> omega
  have hb : (if b < 0 then -b else b) = ((b.natAbs : Nat) : Int) := by
    split <;> omega
  unfold igcd
  simp only [ha, hb]
  rw [igcdLoop_nat _ _ _ (by omega)]
  rfl

end Fraction

namespace Fraction

theorem cast_mul_div_cancel (g n d : Int) (hg : g ≠ 0) (hd : d ≠ 0) :
    ((g * n : Int) : ℚ) / ((g * d : Int) : ℚ) = (n : ℚ) / (d : ℚ) := by
  have hgq : (g : ℚ) ≠ 0 := by exact_mod_cast hg
  have hdq : (d : ℚ) ≠ 0 := by exact_mod_cast hd
  push_cast
  field_simp
  ring

theorem normalize_pos (n d : Int) (hd : 0 < d) :
    normalize { num := n, den := d } = ofRat ((n : ℚ) / (d : ℚ)) := by
  unfold normalize
  have hnd : ¬ d < 0 := by omega
  simp only [hnd, if_false]
  by_cases hn : n = 0
  · subst hn
    simp [ofRat]
  · simp only [hn, if_false, igcd_eq_gcd]
    have hg0 : ((Int.gcd n d : Nat) : Int) ≠ 0 := by
      have : Int.gcd n d ≠ 0 := by
        intro h
        rw [Int.gcd_eq_zero_iff] at h
        omega
      exact_mod_cast this
    have hgpos : (0 : Int) < ((Int.gcd n d : Nat) : Int) := by
      have := Int.gcd_pos_of_ne_zero_left d hn
      exact_mod_cast this
    simp only [hg0, ne_eq, not_false_eq_true, if_true]
    have hdn : ((Int.gcd n d : Nat) : Int) ∣ n := Int.gcd_dvd_left
    have hdd : ((Int.gcd n d : Nat) : Int) ∣ d := Int.gcd_dvd_right
    rw [Int.tdiv_eq_ediv_of_dvd hdn, Int.tdiv_eq_ediv_of_dvd hdd]
    obtain ⟨n', hn'⟩ := hdn
    obtain ⟨d', hd'⟩ := hdd
    have hn1 : n / ((Int.gcd n d : Nat) : Int) = n' := Int.ediv_eq_of_eq_mul_right hg0 hn'
    have hd1 : d / ((Int.gcd n d : Nat) : Int) = d' := Int.ediv_eq_of_eq_mul_right hg0 hd'
    rw [hn1, hd1]
    have hd'pos : 0 < d' := by
      by_contra hcon
      have : d' ≤ 0 := by omega
      have := mul_nonpos_of_nonneg_of_nonpos hgpos.le this
      omega
    have hcop : Nat.Coprime n'.natAbs d'.natAbs := by
      have h1 := Int.gcd_div_gcd_div_gcd (i := n) (j := d) (Int.gcd_pos_of_ne_zero_left d hn)
      rw [hn1, hd1] at h1
      exact h1
    have hq : (n : ℚ) / (d : ℚ) = (n' : ℚ) / (d' : ℚ) := by
      have hd'0 : d' ≠ 0 := by omega
      calc (n : ℚ) / (d : ℚ)
          = ((((Int.gcd n d : Nat) : Int) * n' : Int) : ℚ)
              / ((((Int.gcd n d : Nat) : Int) * d' : Int) : ℚ) := by rw [← hn', ← hd']
        _ = (n' : ℚ) / (d' : ℚ) := cast_mul_div_cancel _ n' d' hg0 hd'0
    rw [hq]
    unfold ofRat
    rw [Rat.num_div_eq_of_coprime hd'pos hcop, Rat.den_div_eq_of_coprime hd'pos hcop]

theorem normalize_ne_zero (n d : Int) (hd : d ≠ 0) :
    normalize { num := n, den := d } = ofRat ((n : ℚ) / (d : ℚ)) := by
  rcases lt_or_gt_of_ne hd with hneg | hpos
  · have h1 : normalize { num := n, den := d } = normalize { num := -n, den := -d } := by
      have h2 : ¬ (-d < 0) := by omega
      simp only [normalize, hneg, h2, if_true, if_false]
    rw [h1, normalize_pos (-n) (-d) (by omega)]
    congr 1
    push_cast
    rw [neg_div_neg_eq]
  · exact normalize_pos n d hpos

theorem ofInt_eq_ofRat (n : Int) : ofInt n = ofRat (n : ℚ) := by
  simp [ofInt, ofRat]

theorem mk2_eq_ofRat (n d : Int) (hd : d ≠ 0) : mk2 n d = ofRat ((n : ℚ) / (d : ℚ)) :=
  normalize_ne_zero n d hd

theorem add_ofRat (p q : ℚ) : add (ofRat p) (ofRat q) = ofRat (p + q) := by
  unfold add
  have hden : ((ofRat p).den * (ofRat q).den) ≠ 0 := by
    simp [ofRat]
  rw [normalize_ne_zero _ _ hden]
  congr 1
  simp only [ofRat]
  push_cast
  have hp : (p.den : ℚ) ≠ 0 := by exact_mod_cast p.den_nz
  have hq : (q.den : ℚ) ≠ 0 := by exact_mod_cast q.den_nz
  conv_rhs => rw [← Rat.num_div_den p, ← Rat.num_div_den q]
  field_simp

theorem mul_ofRat (p q : ℚ) : mul (ofRat p) (ofRat q) = ofRat (p * q) := by
  unfold mul
  have hden : ((ofRat p).den * (ofRat q).den) ≠ 0 := by
    simp [ofRat]
  rw [normalize_ne_zero _ _ hden]
  congr 1
  simp only [ofRat]
  push_cast
  have hp : (p.den : ℚ) ≠ 0 := by exact_mod_cast p.den_nz
  have hq : (q.den : ℚ) ≠ 0 := by exact_mod_cast q.den_nz
  conv_rhs => rw [← Rat.num_div_den p, ← Rat.num_div_den q]
  field_simp

theorem ofRat_intCast (m : Int) : ofRat (m : ℚ) = { num := m, den := 1 } := by
  simp [ofRat]

theorem ofRat_injective {p q : ℚ} (h : ofRat p = ofRat q) : p = q := by
  have h1 : p.num = q.num := congrArg Fraction.num h
  have h2 : (p.den : Int) = (q.den : Int) := congrArg Fraction.den h
  exact Rat.ext h1 (by exact_mod_cast h2)

end Fraction

namespace Fraction

theorem normalize_zero_num (d : Int) : normalize { num := 0, den := d } = { num := 0, den := 1 } := by
  unfold normalize
  split <;> simp

theorem normalize_zero_den (n : Int) (hn : n ≠ 0) : IsInf (normalize { num := n, den := 0 }) := by
  unfold normalize
  have hg : igcd n 0 = ((n.natAbs : Nat) : Int) := by
    rw [igcd_eq_gcd]; simp
  have hg0 : ((n.natAbs : Nat) : Int) ≠ 0 := by omega
  simp only [lt_self_iff_false, if_false, hn, hg, ne_eq, hg0, not_false_eq_true, if_true]
  refine ⟨by simp, ?_⟩
  show Int.tdiv n ((n.natAbs : Nat) : Int) = 1 ∨ Int.tdiv n ((n.natAbs : Nat) : Int) = -1
  rw [Int.tdiv_eq_ediv_of_dvd (by simp)]
  rcases lt_or_gt_of_ne hn with hneg | hpos
  · right
    have h1 : ((n.natAbs : Nat) : Int) = -n := by omega
    rw [h1, Int.ediv_neg, Int.ediv_self hn]
  · left
    have h1 : ((n.natAbs : Nat) : Int) = n := by omega
    rw [h1, Int.ediv_self hn]

theorem ofRat_num_eq_zero (q : ℚ) : (ofRat q).num = 0 ↔ q = 0 := by
  simp [ofRat]

theorem ofRat_den_pos (q : ℚ) : 0 < (ofRat q).den := by
  simp [ofRat, Rat.den_pos]

theorem ofRat_zero : ofRat 0 = { num := 0, den := 1 } := by
  simp [ofRat]

theorem Good.den_zero_num {f : Fraction} (h : Good f) (hd : f.den = 0) : f.num ≠ 0 := by
  rcases h with ⟨q, rfl⟩ | ⟨_, h1 | h1⟩
  · have := ofRat_den_pos q; omega
  · omega
  · omega

theorem Good.exists_of_den {f : Fraction} (h : Good f) (hd : f.den ≠ 0) : ∃ q, f = ofRat q := by
  rcases h with h | ⟨h0, _⟩
  · exact h
  · exact absurd h0 hd

theorem Good.isInf_of_den {f : Fraction} (h : Good f) (hd : f.den = 0) : IsInf f := by
  rcases h with ⟨q, rfl⟩ | h
  · have := ofRat_den_pos q; omega
  · exact h

theorem good_ofInt (n : Int) : Good (ofInt n) := Or.inl ⟨n, ofInt_eq_ofRat n⟩

/-- The two-argument constructor on every input, `d = 0` included. -/
theorem mk2_kind (n d : Int) :
    Good (mk2 n d) ∧ ((mk2 n d).num = 0 ↔ n = 0) ∧ ((mk2 n d).den = 0 ↔ d = 0 ∧ n ≠ 0) := by
  by_cases hd : d = 0
  · subst hd
    by_cases hn : n = 0
    · subst hn
      have h : mk2 0 0 = ofRat 0 := by rw [ofRat_zero]; exact normalize_zero_num 0
      rw [h]
      exact ⟨Or.inl ⟨0, rfl⟩, by simp [ofRat], by simp [ofRat]⟩
    · have h := normalize_zero_den n hn
      refine ⟨Or.inr h, ?_, ?_⟩
      · have := h.2
        constructor
        · intro h0; unfold mk2 at h0; omega
        · intro h0; exact absurd h0 hn
      · simp [mk2, h.1, hn]
  · rw [mk2_eq_ofRat n d hd]
    refine ⟨Or.inl ⟨_, rfl⟩, ?_, ?_⟩
    · rw [ofRat_num_eq_zero]
      have hdq : (d : ℚ) ≠ 0 := by exact_mod_cast hd
      rw [div_eq_zero_iff]
      constructor
      · rintro (h | h)
        · exact_mod_cast h
        · exact absurd h hdq
      · intro h; left; exact_mod_cast h
    · have := ofRat_den_pos ((n : ℚ) / (d : ℚ))
      constructor
      · intro h; omega
      · intro h; exact absurd h.1 hd

/-- The product on every pair of producible operands. -/
theorem mul_kind (a b : Fraction) (ha : Good a) (hb : Good b) :
    Good (mul a b) ∧ ((mul a b).num = 0 ↔ a.num = 0 ∨ b.num = 0)
      ∧ ((mul a b).den = 0 ↔ (a.den = 0 ∨ b.den = 0) ∧ a.num ≠ 0 ∧ b.num ≠ 0) := by
  by_cases hz : a.num = 0 ∨ b.num = 0
  · have hnum : a.num * b.num = 0 := by
      rcases hz with h | h <;> simp [h]
    have h : mul a b = ofRat 0 := by
      unfold mul
      rw [hnum, ofRat_zero]
      exact normalize_zero_num _
    rw [h]
    refine ⟨Or.inl ⟨0, rfl⟩, by simp [ofRat, hz], ?_⟩
    have := ofRat_den_pos 0
    constructor
    · intro h'; omega
    · rintro ⟨_, h1, h2⟩
      rcases hz with h | h
      · exact absurd h h1
      · exact absurd h h2
  · have hna : a.num ≠ 0 := fun h => hz (Or.inl h)
    have hnb : b.num ≠ 0 := fun h => hz (Or.inr h)
    by_cases hden : a.den = 0 ∨ b.den = 0
    · have hd0 : a.den * b.den = 0 := by
        rcases hden with h | h <;> simp [h]
      have hinf : IsInf (mul a b) := by
        unfold mul
        rw [hd0]
        exact normalize_zero_den _ (mul_ne_zero hna hnb)
      refine ⟨Or.inr hinf, ?_, ?_⟩
      · constructor
        · intro h0
          have := hinf.2
          omega
        · intro h0; exact absurd h0 hz
      · simp [hinf.1, hden, hna, hnb]
    · have hda : a.den ≠ 0 := fun h => hden (Or.inl h)
      have hdb : b.den ≠ 0 := fun h => hden (Or.inr h)
      obtain ⟨p, rfl⟩ := ha.exists_of_den hda
      obtain ⟨q, rfl⟩ := hb.exists_of_den hdb
      rw [mul_ofRat]
      refine ⟨Or.inl ⟨_, rfl⟩, ?_, ?_⟩
      · simp only [ofRat_num_eq_zero, mul_eq_zero]
      · have := ofRat_den_pos (p * q)
        constructor
        · intro h; omega
        · intro h; exact absurd h.1 hden

/-- The sum on every pair of producible operands: two operands with denominator `0` cancel
to the canonical zero. -/
theorem add_kind (a b : Fraction) (ha : Good a) (hb : Good b) :
    Good (add a b) ∧ ((add a b).den = 0 ↔ ¬ (a.den = 0 ↔ b.den = 0)) := by
  by_cases hda : a.den = 0
  · have hia := ha.isInf_of_den hda
    by_cases hdb : b.den = 0
    · have h : add a b = ofRat 0 := by
        unfold add
        rw [hda, hdb, ofRat_zero]
        simp only [mul_zero, add_zero]
        exact normalize_zero_num _
      rw [h]
      have := ofRat_den_pos 0
      refine ⟨Or.inl ⟨0, rfl⟩, ?_⟩
      constructor
      · intro h'; omega
      · intro h'; exact absurd (Iff.intro (fun _ => hdb) (fun _ => hda)) h'
    · obtain ⟨q, rfl⟩ := hb.exists_of_den hdb
      have hqpos := ofRat_den_pos q
      have hinf : IsInf (add a (ofRat q)) := by
        unfold add
        rw [hda]
        simp only [mul_zero, add_zero, zero_mul]
        apply normalize_zero_den
        have := ha.den_zero_num hda
        exact mul_ne_zero this (by omega)
      refine ⟨Or.inr hinf, ?_⟩
      simp [hinf.1, hda, hdb]
  · obtain ⟨p, rfl⟩ := ha.exists_of_den hda
    have hppos := ofRat_den_pos p
    by_cases hdb : b.den = 0
    · have hinf : IsInf (add (ofRat p) b) := by
        unfold add
        rw [hdb]
        simp only [mul_zero, zero_add]
        apply normalize_zero_den
        have := hb.den_zero_num hdb
        exact mul_ne_zero this (by omega)
      refine ⟨Or.inr hinf, ?_⟩
      simp [hinf.1, hda, hdb]
    · obtain ⟨q, rfl⟩ := hb.exists_of_den hdb
      rw [add_ofRat]
      have := ofRat_den_pos (p + q)
      refine ⟨Or.inl ⟨_, rfl⟩, ?_⟩
      constructor
      · intro h; omega
      · intro h; exact absurd (Iff.intro (fun h' => absurd h' hda) (fun h' => absurd h' hdb)) h

end Fraction

/-! ## Interpolation -/

theorem lambda_eq_basis_at (xs : List Int) (i : Nat) :
    lagrange_lambda_at_zero xs i = lagrange_basis_at xs 0 i := by
  unfold lagrange_lambda_at_zero lagrange_basis_at
  congr 1
  funext lam j
  by_cases h : j = i
  · subst h; simp
  · have h' : ¬ i = j := fun e => h e.symm
    simp [h, h']

theorem interpolate_P0_eq_sum (xs ys : List Int) :
    interpolate_P0 xs ys = lagrangeSum xs ys 0 := by
  unfold interpolate_P0 lagrangeSum
  congr 1
  funext sum i
  rw [lambda_eq_basis_at]

theorem getD_ne_of_nodup {xs : List Int} (hnd : xs.Nodup) {i j : Nat} (hi : i < xs.length)
    (hj : j < xs.length) (hij : i ≠ j) : xs.getD i 0 ≠ xs.getD j 0 := by
  intro h
  rw [List.getD_eq_getElem _ _ hi, List.getD_eq_getElem _ _ hj] at h
  exact hij ((List.Nodup.getElem_inj_iff hnd).mp h)

theorem basis_fold (xs : List Int) (hnd : xs.Nodup) (q : Int) (i : Nat) (hi : i < xs.length) :
    ∀ n, n ≤ xs.length →
      (List.range n).foldl
        (fun li j =>
          if i = j then li
          else Fraction.mul li
            (Fraction.mk2 (q - xs.getD j 0) (xs.getD i 0 - xs.getD j 0)))
        (Fraction.ofInt 1)
      = Fraction.ofRat (∏ j ∈ Finset.range n, basisFactor xs q i j) := by
  intro n
  induction n with
  | zero => intro _; simp [Fraction.ofInt_eq_ofRat]
  | succ m ih =>
    intro hm
    rw [List.range_succ, List.foldl_append, ih (by omega), Finset.prod_range_succ]
    simp only [List.foldl_cons, List.foldl_nil]
    by_cases h : i = m
    · simp [basisFactor, h]
    · have hne : xs.getD i 0 - xs.getD m 0 ≠ 0 :=
        sub_ne_zero.mpr (getD_ne_of_nodup hnd hi (by omega) h)
      rw [if_neg h, Fraction.mk2_eq_ofRat _ _ hne, Fraction.mul_ofRat]
      congr 2
      simp [basisFactor, h]

theorem lagrange_basis_at_eq (xs : List Int) (hnd : xs.Nodup) (q : Int) (i : Nat)
    (hi : i < xs.length) :
    lagrange_basis_at xs q i
      = Fraction.ofRat (∏ j ∈ Finset.range xs.length, basisFactor xs q i j) :=
  basis_fold xs hnd q i hi xs.length le_rfl

theorem sum_fold (xs ys : List Int) (hnd : xs.Nodup) (q : Int) :
    ∀ n, n ≤ xs.length →
      (List.range n).foldl
        (fun sum i =>
          Fraction.add sum
            (Fraction.mul (Fraction.ofInt (ys.getD i 0)) (lagrange_basis_at xs q i)))
        (Fraction.ofInt 0)
      = Fraction.ofRat (∑ i ∈ Finset.range n,
          (ys.getD i 0 : ℚ) * ∏ j ∈ Finset.range xs.length, basisFactor xs q i j) := by
  intro n
  induction n with
  | zero => intro _; simp [Fraction.ofInt_eq_ofRat]
  | succ m ih =>
    intro hm
    rw [List.range_succ, List.foldl_append, ih (by omega), Finset.sum_range_succ]
    simp only [List.foldl_cons, List.foldl_nil]
    rw [lagrange_basis_at_eq xs hnd q m (by omega), Fraction.ofInt_eq_ofRat,
      Fraction.mul_ofRat, Fraction.add_ofRat]

theorem lagrangeSum_eq (xs ys : List Int) (hnd : xs.Nodup) (q : Int) :
    lagrangeSum xs ys q
      = Fraction.ofRat (∑ i ∈ Finset.range xs.length,
          (ys.getD i 0 : ℚ) * ∏ j ∈ Finset.range xs.length, basisFactor xs q i j) :=
  sum_fold xs ys hnd q xs.length le_rfl

/-- A polynomial over `ℚ` with the coefficient list `cs`: its degree and its values. -/
theorem exists_poly (cs : List Int) :
    ∃ f : Polynomial ℚ, (∀ m, cs.length ≤ m → f.coeff m = 0)
      ∧ ∀ x : Int, f.eval (x : ℚ) = ((polyEval cs x : Int) : ℚ) := by
  induction cs with
  | nil => exact ⟨0, by simp, by simp [polyEval]⟩
  | cons c cs ih =>
    obtain ⟨f, hcoeff, heval⟩ := ih
    refine ⟨Polynomial.C (c : ℚ) + Polynomial.X * f, ?_, ?_⟩
    · intro m hm
      obtain ⟨m', rfl⟩ : ∃ m', m = m' + 1 := ⟨m - 1, by simp at hm; omega⟩
      rw [Polynomial.coeff_add, Polynomial.coeff_C_succ, Polynomial.coeff_X_mul, zero_add]
      exact hcoeff m' (by simp at hm; omega)
    · intro x
      simp [polyEval, heval]

theorem injOn_of_nodup (xs : List Int) (hnd : xs.Nodup) :
    Set.InjOn (fun i : Nat => (xs.getD i 0 : ℚ)) (Finset.range xs.length : Set Nat) := by
  intro i hi j hj h
  simp only [Finset.coe_range, Set.mem_Iio] at hi hj
  by_contra hij
  have h' : (xs.getD i 0 : ℚ) = (xs.getD j 0 : ℚ) := h
  exact getD_ne_of_nodup hnd hi hj hij (by exact_mod_cast h')

theorem basis_eval (xs : List Int) (q : Int) (i : Nat) :
    (Lagrange.basis (Finset.range xs.length) (fun i : Nat => (xs.getD i 0 : ℚ)) i).eval (q : ℚ)
      = ∏ j ∈ Finset.range xs.length, basisFactor xs q i j := by
  rw [Lagrange.basis, Polynomial.eval_prod, ← Finset.filter_ne', Finset.prod_filter]
  refine Finset.prod_congr rfl (fun j _ => ?_)
  by_cases h : i = j
  · subst h; simp [basisFactor]
  · have h' : j ≠ i := fun e => h e.symm
    simp only [basisFactor, h, h', if_false, ne_eq, not_false_eq_true, if_true,
      Lagrange.basisDivisor, Polynomial.eval_mul, Polynomial.eval_C, Polynomial.eval_sub,
      Polynomial.eval_X]
    rw [div_eq_inv_mul]

/-- Lagrange's formula over `ℚ` for the points `(xs[i], P(xs[i]))` at an integer query. -/
theorem lagrange_sum_rat (cs xs : List Int) (hnd : xs.Nodup) (hdeg : cs.length ≤ xs.length)
    (q : Int) :
    (∑ i ∈ Finset.range xs.length,
        (((xs.map (polyEval cs)).getD i 0 : Int) : ℚ)
          * ∏ j ∈ Finset.range xs.length, basisFactor xs q i j)
      = ((polyEval cs q : Int) : ℚ) := by
  obtain ⟨f, hcoeff, heval⟩ := exists_poly cs
  have hdegf : f.degree < ((Finset.range xs.length).card : WithBot ℕ) := by
    rw [Finset.card_range]
    exact (Polynomial.degree_lt_iff_coeff_zero _ _).mpr
      (fun m hm => hcoeff m (le_trans hdeg hm))
  have hint := Lagrange.eq_interpolate_of_eval_eq (s := Finset.range xs.length)
    (v := fun i : Nat => (xs.getD i 0 : ℚ))
    (r := fun i : Nat => (((xs.map (polyEval cs)).getD i 0 : Int) : ℚ))
    (f := f) (injOn_of_nodup xs hnd) hdegf
    (by
      intro i hi
      simp only [Finset.mem_range] at hi
      rw [heval]
      congr 1
      rw [List.getD_eq_getElem xs 0 hi,
        List.getD_eq_getElem (xs.map (polyEval cs)) 0 (by simpa using hi)]
      simp)
  have h2 := congrArg (Polynomial.eval (q : ℚ)) hint
  rw [heval, Lagrange.interpolate_apply, Polynomial.eval_finset_sum] at h2
  rw [h2]
  refine Finset.sum_congr rfl (fun i _ => ?_)
  rw [Polynomial.eval_mul, Polynomial.eval_C, basis_eval]

theorem lagrangeSum_poly (cs xs : List Int) (hnd : xs.Nodup) (hdeg : cs.length ≤ xs.length)
    (q : Int) :
    lagrangeSum xs (xs.map (polyEval cs)) q = { num := polyEval cs q, den := 1 } := by
  rw [lagrangeSum_eq xs _ hnd q, lagrange_sum_rat cs xs hnd hdeg q, Fraction.ofRat_intCast]

theorem interpolate_eval_eq (xs ys : List Int) (xq : Int) :
    interpolate_eval xs ys xq
      = match findHit xs xq with
        | some i => Fraction.ofInt (ys.getD i 0)
        | none => lagrangeSum xs ys xq := rfl

theorem findHit_some {xs : List Int} {xq : Int} {i : Nat} (h : findHit xs xq = some i) :
    i < xs.length ∧ xq = xs.getD i 0 := by
  unfold findHit at h
  have h1 := List.find?_some h
  have h2 := List.mem_of_find?_eq_some h
  exact ⟨List.mem_range.mp h2, by simpa using h1⟩

theorem getD_map_polyEval (cs xs : List Int) (i : Nat) (hi : i < xs.length) :
    (xs.map (polyEval cs)).getD i 0 = polyEval cs (xs.getD i 0) := by
  rw [List.getD_eq_getElem xs 0 hi,
    List.getD_eq_getElem (xs.map (polyEval cs)) 0 (by simpa using hi)]
  simp

theorem interpolate_P0_poly (cs xs : List Int) (hdeg : cs.length ≤ xs.length) (hnd : xs.Nodup) :
    interpolate_P0 xs (xs.map (polyEval cs)) = { num := polyEval cs 0, den := 1 } := by
  rw [interpolate_P0_eq_sum]
  exact lagrangeSum_poly cs xs hnd hdeg 0

theorem interpolate_eval_poly (cs xs : List Int) (hdeg : cs.length ≤ xs.length) (hnd : xs.Nodup)
    (xq : Int) :
    interpolate_eval xs (xs.map (polyEval cs)) xq = { num := polyEval cs xq, den := 1 } := by
  rw [interpolate_eval_eq]
  cases hf : findHit xs xq with
  | none => exact lagrangeSum_poly cs xs hnd hdeg xq
  | some i =>
    obtain ⟨hi, hx⟩ := findHit_some hf
    simp only [Fraction.ofInt]
    rw [getD_map_polyEval cs xs i hi, ← hx]

theorem lambda_kind (xs : List Int) (i : Nat) : ∀ m,
    Fraction.Good ((List.range m).foldl
        (fun lam j =>
          if j = i then lam
          else Fraction.mul lam (Fraction.mk2 (-(xs.getD j 0)) (xs.getD i 0 - xs.getD j 0)))
        (Fraction.ofInt 1))
    ∧ (((List.range m).foldl
        (fun lam j =>
          if j = i then lam
          else Fraction.mul lam (Fraction.mk2 (-(xs.getD j 0)) (xs.getD i 0 - xs.getD j 0)))
        (Fraction.ofInt 1)).num ≠ 0 ↔ ∀ j < m, j ≠ i → xs.getD j 0 ≠ 0)
    ∧ (((List.range m).foldl
        (fun lam j =>
          if j = i then lam
          else Fraction.mul lam (Fraction.mk2 (-(xs.getD j 0)) (xs.getD i 0 - xs.getD j 0)))
        (Fraction.ofInt 1)).den = 0 ↔
          (∃ j < m, j ≠ i ∧ xs.getD j 0 = xs.getD i 0) ∧ ∀ j < m, j ≠ i → xs.getD j 0 ≠ 0) := by
  intro m
  induction m with
  | zero =>
    refine ⟨Fraction.good_ofInt 1, ?_, ?_⟩
    · simp [Fraction.ofInt]
    · simp [Fraction.ofInt]
  | succ m ih =>
    rw [List.range_succ, List.foldl_append]
    simp only [List.foldl_cons, List.foldl_nil]
    generalize (List.range m).foldl
        (fun lam j =>
          if j = i then lam
          else Fraction.mul lam (Fraction.mk2 (-(xs.getD j 0)) (xs.getD i 0 - xs.getD j 0)))
        (Fraction.ofInt 1) = lam at ih ⊢
    obtain ⟨hg, hnum, hden⟩ := ih
    rw [Nat.forall_lt_succ, Nat.exists_lt_succ]
    by_cases hmi : m = i
    · rw [if_pos hmi]
      refine ⟨hg, ?_, ?_⟩
      · rw [hnum]; simp [hmi]
      · rw [hden]; simp [hmi]
    · rw [if_neg hmi]
      obtain ⟨hg2, hnum2, hden2⟩ := Fraction.mk2_kind (-(xs.getD m 0)) (xs.getD i 0 - xs.getD m 0)
      obtain ⟨hg3, hnum3, hden3⟩ := Fraction.mul_kind lam _ hg hg2
      refine ⟨hg3, ?_, ?_⟩
      · rw [Ne, hnum3, hnum2, not_or, ← Ne, hnum]
        simp [hmi]
      · have e1 : xs.getD i 0 - xs.getD m 0 = 0 ↔ xs.getD m 0 = xs.getD i 0 := by
          constructor <;> intro h <;> omega
        have e2 : -(xs.getD m 0) = 0 ↔ xs.getD m 0 = 0 := by
          constructor <;> intro h <;> omega
        have e3 : -(xs.getD m 0) ≠ 0 ↔ xs.getD m 0 ≠ 0 := not_congr e2
        have hn2 : (Fraction.mk2 (-(xs.getD m 0)) (xs.getD i 0 - xs.getD m 0)).num ≠ 0
            ↔ xs.getD m 0 ≠ 0 := by
          rw [Ne, hnum2, e2]
        rw [hden3, hden2, hden, hnum, hn2, e1, e3]
        simp only [hmi, ne_eq, not_false_eq_true, true_and, true_implies]
        constructor
        · rintro ⟨h1, hN, hZ⟩
          refine ⟨?_, hN, hZ⟩
          rcases h1 with ⟨hA, _⟩ | ⟨hE, _⟩
          · exact Or.inl hA
          · exact Or.inr hE
        · rintro ⟨h1, hN, hZ⟩
          refine ⟨?_, hN, hZ⟩
          rcases h1 with hA | hE
          · exact Or.inl ⟨hA, hN⟩
          · exact Or.inr ⟨hE, hZ⟩

theorem lagrange_lambda_kind (xs : List Int) (i : Nat) :
    Fraction.Good (lagrange_lambda_at_zero xs i)
    ∧ ((lagrange_lambda_at_zero xs i).den = 0 ↔
          (∃ j < xs.length, j ≠ i ∧ xs.getD j 0 = xs.getD i 0)
            ∧ ∀ j < xs.length, j ≠ i → xs.getD j 0 ≠ 0) :=
  ⟨(lambda_kind xs i xs.length).1, (lambda_kind xs i xs.length).2.2⟩

theorem infTerm_iff (xs ys : List Int) (i : Nat) :
    infTerm xs ys i = true ↔
      ys.getD i 0 ≠ 0 ∧ (∃ j < xs.length, j ≠ i ∧ xs.getD j 0 = xs.getD i 0)
        ∧ ∀ j < xs.length, j ≠ i → xs.getD j 0 ≠ 0 := by
  unfold infTerm
  simp only [Bool.and_eq_true, decide_eq_true_eq, List.any_eq_true, List.all_eq_true,
    List.mem_range, Bool.or_eq_true]
  constructor
  · rintro ⟨h1, ⟨j, hj, hji, hx⟩, h3⟩
    refine ⟨h1, ⟨j, hj, hji, hx⟩, ?_⟩
    intro j hj hji
    rcases h3 j hj with h | h
    · exact absurd h hji
    · exact h
  · rintro ⟨h1, ⟨j, hj, hji, hx⟩, h3⟩
    refine ⟨h1, ⟨j, hj, hji, hx⟩, ?_⟩
    intro j hj
    by_cases hji : j = i
    · exact Or.inl hji
    · exact Or.inr (h3 j hj hji)

theorem term_kind (xs ys : List Int) (i : Nat) :
    Fraction.Good (Fraction.mul (Fraction.ofInt (ys.getD i 0)) (lagrange_lambda_at_zero xs i))
    ∧ ((Fraction.mul (Fraction.ofInt (ys.getD i 0)) (lagrange_lambda_at_zero xs i)).den = 0
        ↔ infTerm xs ys i = true) := by
  obtain ⟨hg, hden⟩ := lagrange_lambda_kind xs i
  obtain ⟨hg2, _, hden2⟩ := Fraction.mul_kind (Fraction.ofInt (ys.getD i 0)) _
    (Fraction.good_ofInt _) hg
  refine ⟨hg2, ?_⟩
  rw [hden2, infTerm_iff, ← hden]
  simp only [Fraction.ofInt, one_ne_zero, false_or]
  constructor
  · rintro ⟨h1, h2, _⟩; exact ⟨h2, h1⟩
  · rintro ⟨h1, h2⟩; exact ⟨h2, h1, hg.den_zero_num h2⟩

theorem interpolate_P0_kind (xs ys : List Int) : ∀ m,
    Fraction.Good ((List.range m).foldl
        (fun sum i => Fraction.add sum
          (Fraction.mul (Fraction.ofInt (ys.getD i 0)) (lagrange_lambda_at_zero xs i)))
        (Fraction.ofInt 0))
    ∧ (((List.range m).foldl
        (fun sum i => Fraction.add sum
          (Fraction.mul (Fraction.ofInt (ys.getD i 0)) (lagrange_lambda_at_zero xs i)))
        (Fraction.ofInt 0)).den = 0 ↔ Odd ((List.range m).countP (infTerm xs ys))) := by
  intro m
  induction m with
  | zero =>
    refine ⟨Fraction.good_ofInt 0, ?_⟩
    simp [Fraction.ofInt]
  | succ m ih =>
    rw [List.range_succ, List.foldl_append, List.countP_append]
    simp only [List.foldl_cons, List.foldl_nil]
    generalize (List.range m).foldl
        (fun sum i => Fraction.add sum
          (Fraction.mul (Fraction.ofInt (ys.getD i 0)) (lagrange_lambda_at_zero xs i)))
        (Fraction.ofInt 0) = sum at ih ⊢
    obtain ⟨hg, hden⟩ := ih
    obtain ⟨hgt, hdent⟩ := term_kind xs ys m
    obtain ⟨hg2, hden2⟩ := Fraction.add_kind sum _ hg hgt
    refine ⟨hg2, ?_⟩
    rw [hden2, hden, hdent, List.countP_singleton]
    by_cases hinf : infTerm xs ys m = true
    · simp only [hinf, if_true, iff_true]
      rw [Nat.odd_add_one]
    · simp only [hinf, if_false, iff_false, not_not, add_zero, Bool.false_eq_true]

theorem good_canonical {f : Fraction} (h : Fraction.Good f) (hd : f.den ≠ 0) :
    0 < f.den ∧ Int.gcd f.num f.den = 1 := by
  obtain ⟨q, rfl⟩ := h.exists_of_den hd
  refine ⟨Fraction.ofRat_den_pos q, ?_⟩
  simp only [Fraction.ofRat, Int.gcd, Int.natAbs_cast]
  exact q.reduced

theorem validSubset_iff (shares : List Share) (s : List Nat) :
    validSubset shares s
      ↔ (interpolate_P0 (subsetXs shares s) (subsetYs shares s)).den = 1 := by
  unfold validSubset Fraction.isInteger
  exact beq_iff_eq

/-! ## The subset search -/

theorem inlierStep_eq (shares : List Share) (xs ys : List Int) (acc : Int × List Int) (t : Nat) :
    inlierStep shares xs ys acc t
      = if isInlier xs ys (shareAt shares t) = true then (acc.1 + 1, acc.2.set t 1) else acc := by
  unfold inlierStep isInlier
  by_cases h1 : (interpolate_eval xs ys (shareAt shares t).x).den = 1
  · by_cases h2 : (interpolate_eval xs ys (shareAt shares t).x).num = (shareAt shares t).y
    · simp [h1, h2]
    · simp [h1, h2]
  · by_cases h0 : (interpolate_eval xs ys (shareAt shares t).x).den = 0
    · simp [h0]
    · simp [h0, h1]

theorem countInliers_fold (shares : List Share) (xs ys : List Int) :
    ∀ m, m ≤ shares.length →
      (List.range m).foldl (inlierStep shares xs ys) (0, List.replicate shares.length 0)
        = ((((List.range m).countP (fun t => isInlier xs ys (shareAt shares t)) : Nat) : Int),
           (List.range shares.length).map
             (fun t => if t < m ∧ isInlier xs ys (shareAt shares t) = true then (1 : Int) else 0)) := by
  intro m
  induction m with
  | zero =>
    intro _
    simp only [List.range_zero, List.foldl_nil, List.countP_nil, Nat.cast_zero, Nat.not_lt_zero,
      false_and, if_false]
    congr 1
    apply List.ext_getElem <;> simp
  | succ m ih =>
    intro hm
    rw [List.range_succ, List.foldl_append, ih (by omega), List.countP_append]
    simp only [List.foldl_cons, List.foldl_nil]
    rw [inlierStep_eq]
    by_cases h : isInlier xs ys (shareAt shares m) = true
    · rw [if_pos h]
      refine Prod.ext (by simp [h]) ?_
      apply List.ext_getElem
      · simp
      · intro i h1 h2
        simp only [List.getElem_set, List.getElem_map, List.getElem_range]
        by_cases him : m = i
        · subst him; simp [h]
        · simp only [him, if_false]
          have : (i < m + 1) ↔ (i < m) := by omega
          simp only [this]
    · rw [if_neg h]
      refine Prod.ext (by simp [h]) ?_
      apply List.ext_getElem
      · simp
      · intro i h1 h2
        simp only [List.getElem_map, List.getElem_range]
        by_cases him : m = i
        · subst him; simp [h]
        · have : (i < m + 1) ↔ (i < m) := by omega
          simp only [this]

theorem countInliers_eq (shares : List Share) (xs ys : List Int) :
    countInliers shares xs ys
      = ((((List.range shares.length).countP
              (fun t => isInlier xs ys (shareAt shares t)) : Nat) : Int),
         (List.range shares.length).map
           (fun t => if isInlier xs ys (shareAt shares t) = true then (1 : Int) else 0)) := by
  unfold countInliers
  rw [countInliers_fold shares xs ys shares.length le_rfl]
  congr 1
  apply List.map_congr_left
  intro t ht
  simp [List.mem_range.mp ht]

theorem map_shareAt_range (shares : List Share) :
    (List.range shares.length).map (shareAt shares) = shares := by
  apply List.ext_getElem
  · simp
  · intro i h1 h2
    simp only [List.getElem_map, List.getElem_range, shareAt]
    exact List.getD_eq_getElem _ _ h2

theorem evalSubset_eq (shares : List Share) (s : List Nat) (st : Best) :
    evalSubset shares s st
      = if validSubset shares s ∧ st.bestInliers < inlierCount shares s
        then candidate shares s else st := by
  unfold evalSubset validSubset candidate inlierCount inlierMask subsetXs subsetYs
  by_cases h1 : (interpolate_P0 (s.map (fun pos => (shareAt shares pos).x))
      (s.map (fun pos => (shareAt shares pos).y))).isInteger = true
  · by_cases h2 : st.bestInliers < (countInliers shares (s.map (fun pos => (shareAt shares pos).x))
        (s.map (fun pos => (shareAt shares pos).y))).1
    · simp [h1, h2]
    · simp [h1, h2]
  · simp [h1]

theorem combos_eq_nil : ∀ (k : Nat) (l : List Nat), l.length < k → combos k l = []
  | 0, _, h => by omega
  | _ + 1, [], _ => rfl
  | k + 1, a :: l, h => by
    have h1 : l.length < k := by simp at h; omega
    have h2 : l.length < k + 1 := by omega
    simp [combos, combos_eq_nil k l h1, combos_eq_nil (k + 1) l h2]

theorem combosInt_cons (need : Int) (hne : need ≠ 0) (a : Nat) (l : List Nat) :
    combosInt need (a :: l)
      = (combosInt (need - 1) l).map (fun s => a :: s) ++ combosInt need l := by
  unfold combosInt
  by_cases hneg : need < 0
  · have h1 : need - 1 < 0 := by omega
    simp [hneg, h1]
  · have h1 : ¬ need - 1 < 0 := by omega
    obtain ⟨k, hk⟩ : ∃ k : Nat, need.toNat = k + 1 := ⟨need.toNat - 1, by omega⟩
    have hk' : (need - 1).toNat = k := by omega
    simp only [hneg, h1, if_false, hk, hk', combos]

theorem combosInt_nil (need : Int) (hne : need ≠ 0) : combosInt need [] = [] := by
  unfold combosInt
  by_cases hneg : need < 0
  · simp [hneg]
  · obtain ⟨k, hk⟩ : ∃ k : Nat, need.toNat = k + 1 := ⟨need.toNat - 1, by omega⟩
    simp only [hneg, if_false, hk, combos]

/-- Unfolding of `dfs` with a positive budget, given the meaning of its `for` loop. -/
theorem dfs_of_loop (shares : List Share) (idxs : List Nat) (m : Nat)
    (hA : ∀ (depth start : Nat) (need : Int) (cur : List Nat) (st : Best),
      idxs.length - start = m → m ≤ depth → need ≠ 0 →
      (List.range' start (idxs.length - start)).foldl
          (fun s i => dfs shares idxs depth (i + 1) (need - 1) (cur ++ [idxs.getD i 0]) s) st
        = (combosInt need (idxs.drop start)).foldl
            (fun st s => evalSubset shares (cur ++ s) st) st)
    (depth start : Nat) (need : Int) (cur : List Nat) (st : Best)
    (hm : idxs.length - start = m) (hstart : start ≤ idxs.length) (hd : m + 1 ≤ depth) :
    dfs shares idxs depth start need cur st
      = (combosInt need (idxs.drop start)).foldl
          (fun st s => evalSubset shares (cur ++ s) st) st := by
  obtain ⟨d, rfl⟩ : ∃ d, depth = d + 1 := ⟨depth - 1, by omega⟩
  rw [dfs]
  by_cases hprune : (cur.length : Int) + (idxs.length : Int) - (start : Int) < need
  · rw [if_pos hprune]
    have hlen : (idxs.drop start).length < need.toNat := by
      rw [List.length_drop]; omega
    have hneg : ¬ need < 0 := by omega
    simp [combosInt, hneg, combos_eq_nil _ _ hlen]
  · rw [if_neg hprune]
    by_cases h0 : need = 0
    · subst h0
      simp [combosInt, combos]
    · rw [if_neg h0]
      exact hA d start need cur st hm (by omega) h0

/-- The `for` loop of `dfs` visits the subsets of the remaining positions in order. -/
theorem dfs_loop_fold (shares : List Share) (idxs : List Nat) :
    ∀ (m depth start : Nat) (need : Int) (cur : List Nat) (st : Best),
      idxs.length - start = m → m ≤ depth → need ≠ 0 →
      (List.range' start (idxs.length - start)).foldl
          (fun s i => dfs shares idxs depth (i + 1) (need - 1) (cur ++ [idxs.getD i 0]) s) st
        = (combosInt need (idxs.drop start)).foldl
            (fun st s => evalSubset shares (cur ++ s) st) st := by
  intro m
  induction m with
  | zero =>
    intro depth start need cur st hm _ hne
    have hdrop : idxs.drop start = [] := List.drop_eq_nil_of_le (by omega)
    rw [hm, hdrop, combosInt_nil need hne]
    rfl
  | succ m ih =>
    intro depth start need cur st hm hd hne
    have hlt : start < idxs.length := by omega
    have hdrop : idxs.drop start = idxs[start] :: idxs.drop (start + 1) :=
      List.drop_eq_getElem_cons hlt
    have hget : idxs.getD start 0 = idxs[start] := List.getD_eq_getElem _ _ hlt
    have hm1 : idxs.length - (start + 1) = m := by omega
    have hrange : List.range' start (idxs.length - start)
        = start :: List.range' (start + 1) (idxs.length - (start + 1)) := by
      rw [hm, hm1, List.range'_succ]
    rw [hrange, List.foldl_cons, ih depth (start + 1) need cur _ hm1 (by omega) hne,
      dfs_of_loop shares idxs m ih depth (start + 1) (need - 1) (cur ++ [idxs.getD start 0]) st
        hm1 (by omega) hd,
      hdrop, combosInt_cons need hne, List.foldl_append, List.foldl_map, hget]
    simp only [List.append_assoc, List.singleton_append]

/-- The recursion budget of `search` is never exhausted: `dfs(0, k)` folds the evaluation
step over every size-`k` subset in order. -/
theorem dfs_budget (shares : List Share) (k : Int) :
    search shares k
      = (combosInt k (List.range shares.length)).foldl
          (fun st s => evalSubset shares s st) Best.init := by
  unfold search
  rw [dfs_of_loop shares (List.range shares.length) (List.range shares.length).length
    (fun depth start need cur st h1 h2 h3 =>
      dfs_loop_fold shares _ _ depth start need cur st h1 h2 h3)
    (shares.length + 1) 0 k [] Best.init (by simp) (by simp) (by simp)]
  simp

theorem combos_mem : ∀ (k : Nat) (l s : List Nat),
    s ∈ combos k l ↔ s.Sublist l ∧ s.length = k
  | 0, l, s => by
    simp only [combos, List.mem_singleton, List.length_eq_zero]
    constructor
    · rintro rfl; exact ⟨List.nil_sublist l, rfl⟩
    · exact fun h => h.2
  | k + 1, [], s => by
    simp only [combos, List.not_mem_nil, List.sublist_nil, false_iff, not_and]
    rintro rfl; simp
  | k + 1, a :: l, s => by
    simp only [combos, List.mem_append, List.mem_map, combos_mem k l, combos_mem (k + 1) l,
      List.sublist_cons_iff]
    constructor
    · rintro (⟨t, ⟨ht, hlen⟩, rfl⟩ | ⟨hs, hlen⟩)
      · exact ⟨Or.inr ⟨t, rfl, ht⟩, by simp [hlen]⟩
      · exact ⟨Or.inl hs, hlen⟩
    · rintro ⟨hs | ⟨t, rfl, ht⟩, hlen⟩
      · exact Or.inr ⟨hs, hlen⟩
      · exact Or.inl ⟨t, ⟨ht, by simpa using hlen⟩, rfl⟩

theorem combosInt_mem (k : Int) (l s : List Nat) :
    s ∈ combosInt k l ↔ s.Sublist l ∧ (s.length : Int) = k := by
  unfold combosInt
  by_cases hneg : k < 0
  · simp only [hneg, if_true, List.not_mem_nil, false_iff, not_and]
    intro _; omega
  · simp only [hneg, if_false, combos_mem]
    constructor
    · rintro ⟨h1, h2⟩; exact ⟨h1, by omega⟩
    · rintro ⟨h1, h2⟩; exact ⟨h1, by omega⟩

theorem sublist_range_iff (n : Nat) (s : List Nat) :
    s.Sublist (List.range n) ↔ s.Pairwise (· < ·) ∧ ∀ p ∈ s, p < n := by
  constructor
  · intro h
    exact ⟨List.Pairwise.sublist h (List.pairwise_lt_range n),
      fun p hp => List.mem_range.mp (h.subset hp)⟩
  · rintro ⟨hp, hmem⟩
    have hnd : s.Nodup := hp.imp (fun h => Nat.ne_of_lt h)
    have hsub : s ⊆ List.range n := fun p hp' => List.mem_range.mpr (hmem p hp')
    exact List.sublist_of_subperm_of_sorted (List.subperm_of_subset hnd hsub) hp
      (List.pairwise_lt_range n)

theorem mem_combosInt_range (n : Nat) (k : Int) (s : List Nat) :
    s ∈ combosInt k (List.range n) ↔ IsSubset n k s := by
  rw [combosInt_mem, sublist_range_iff]
  unfold IsSubset
  tauto

theorem combos_lex : ∀ (k : Nat) (l : List Nat), l.Pairwise (· < ·) →
    (combos k l).Pairwise (List.Lex (· < ·))
  | 0, _, _ => by simp [combos]
  | _ + 1, [], _ => by simp [combos]
  | k + 1, a :: l, h => by
    have hl : l.Pairwise (· < ·) := (List.pairwise_cons.mp h).2
    have ha : ∀ b ∈ l, a < b := (List.pairwise_cons.mp h).1
    rw [combos, List.pairwise_append]
    refine ⟨?_, combos_lex (k + 1) l hl, ?_⟩
    · rw [List.pairwise_map]
      exact (combos_lex k l hl).imp (fun h' => List.Lex.cons h')
    · intro u hu v hv
      obtain ⟨t, _, rfl⟩ := List.mem_map.mp hu
      obtain ⟨hv1, hv2⟩ := (combos_mem (k + 1) l v).mp hv
      cases v with
      | nil => simp at hv2
      | cons b v' =>
        have hb : b ∈ l := hv1.subset (List.mem_cons_self b v')
        exact List.Lex.rel (ha b hb)

theorem combosInt_lex (k : Int) (l : List Nat) (h : l.Pairwise (· < ·)) :
    (combosInt k l).Pairwise (List.Lex (· < ·)) := by
  unfold combosInt
  split
  · exact List.Pairwise.nil
  · exact combos_lex _ l h

theorem inlierCount_nonneg (shares : List Share) (s : List Nat) : 0 ≤ inlierCount shares s := by
  unfold inlierCount
  rw [countInliers_eq]
  exact Int.natCast_nonneg _

/-- Folding the evaluation step keeps the first subset of maximal score. -/
theorem fold_best (shares : List Share) : ∀ (L : List (List Nat)) (st : Best),
    (L.foldl (fun st s => evalSubset shares s st) st = st
      ∧ ∀ t ∈ L, validSubset shares t → inlierCount shares t ≤ st.bestInliers)
    ∨ ∃ L1 s L2, L = L1 ++ s :: L2 ∧ validSubset shares s
        ∧ L.foldl (fun st s => evalSubset shares s st) st = candidate shares s
        ∧ st.bestInliers < inlierCount shares s
        ∧ (∀ t ∈ L1, validSubset shares t → inlierCount shares t < inlierCount shares s)
        ∧ (∀ t ∈ L2, validSubset shares t → inlierCount shares t ≤ inlierCount shares s) := by
  intro L
  induction L with
  | nil => intro st; exact Or.inl ⟨rfl, by simp⟩
  | cons a L ih =>
    intro st
    rw [List.foldl_cons, evalSubset_eq]
    by_cases hwin : validSubset shares a ∧ st.bestInliers < inlierCount shares a
    · rw [if_pos hwin]
      rcases ih (candidate shares a) with ⟨heq, hle⟩ | ⟨L1, s, L2, hL, hv, heq, hlt, h1, h2⟩
      · exact Or.inr ⟨[], a, L, rfl, hwin.1, heq, hwin.2, by simp, hle⟩
      · refine Or.inr ⟨a :: L1, s, L2, by simp [hL], hv, heq, ?_, ?_, h2⟩
        · exact lt_trans hwin.2 hlt
        · intro t ht hvt
          rcases List.mem_cons.mp ht with rfl | ht'
          · exact hlt
          · exact h1 t ht' hvt
    · rw [if_neg hwin]
      have ha : validSubset shares a → inlierCount shares a ≤ st.bestInliers := by
        intro hv
        by_contra hcon
        exact hwin ⟨hv, by omega⟩
      rcases ih st with ⟨heq, hle⟩ | ⟨L1, s, L2, hL, hv, heq, hlt, h1, h2⟩
      · refine Or.inl ⟨heq, ?_⟩
        intro t ht hvt
        rcases List.mem_cons.mp ht with rfl | ht'
        · exact ha hvt
        · exact hle t ht' hvt
      · refine Or.inr ⟨a :: L1, s, L2, by simp [hL], hv, heq, hlt, ?_, h2⟩
        intro t ht hvt
        rcases List.mem_cons.mp ht with rfl | ht'
        · exact lt_of_le_of_lt (ha hvt) hlt
        · exact h1 t ht' hvt

/-- What `search` leaves in the accumulator: nothing when no subset is valid, otherwise the
first valid subset of maximal inlier count in visiting order. -/
theorem search_cases (shares : List Share) (k : Int) :
    (search shares k = Best.init
      ∧ ∀ t, IsSubset shares.length k t → ¬ validSubset shares t)
    ∨ ∃ L1 s L2, combosInt k (List.range shares.length) = L1 ++ s :: L2
        ∧ validSubset shares s
        ∧ search shares k = candidate shares s
        ∧ (∀ t ∈ L1, validSubset shares t → inlierCount shares t < inlierCount shares s)
        ∧ (∀ t ∈ L2, validSubset shares t → inlierCount shares t ≤ inlierCount shares s) := by
  rw [dfs_budget]
  rcases fold_best shares (combosInt k (List.range shares.length)) Best.init with
    ⟨heq, hle⟩ | ⟨L1, s, L2, hL, hv, heq, _, h1, h2⟩
  · refine Or.inl ⟨heq, ?_⟩
    intro t ht hvt
    have h1 := hle t ((mem_combosInt_range _ _ _).mpr ht) hvt
    have h2 := inlierCount_nonneg shares t
    simp only [Best.init] at h1
    omega
  · exact Or.inr ⟨L1, s, L2, hL, hv, heq, h1, h2⟩

theorem wrongList_nil (shares : List Share) : wrongList shares [] = [] := by
  unfold wrongList
  have h : ∀ (l : List Nat) (out : List Int),
      l.foldl (fun out i =>
        if (!([] : List Int).isEmpty && ([] : List Int).getD i 0 == 0) = true
        then out ++ [(shareAt shares i).x] else out) out = out := by
    intro l
    induction l with
    | nil => intro out; rfl
    | cons a l ih => intro out; simp [List.foldl_cons]
  exact h _ _

theorem wrongList_fold (shares : List Share) (f : Nat → Bool) (mask : List Int)
    (hne : mask.isEmpty = false)
    (hmask : ∀ i, i < shares.length → (mask.getD i 0 == 0) = !f i) :
    ∀ m, m ≤ shares.length →
      (List.range m).foldl
        (fun out i =>
          if (!mask.isEmpty && mask.getD i 0 == 0) = true then out ++ [(shareAt shares i).x]
          else out) []
      = ((List.range m).filter (fun i => !f i)).map (fun i => (shareAt shares i).x) := by
  intro m
  induction m with
  | zero => intro _; rfl
  | succ m ih =>
    intro hm
    rw [List.range_succ, List.foldl_append, ih (by omega), List.filter_append, List.map_append]
    simp only [List.foldl_cons, List.foldl_nil, hne, Bool.not_false, Bool.true_and,
      hmask m (by omega)]
    cases hf : f m <;> simp [List.filter_cons, hf]

theorem wrongList_mask (shares : List Share) (xs ys : List Int) :
    wrongList shares ((List.range shares.length).map
        (fun t => if isInlier xs ys (shareAt shares t) = true then (1 : Int) else 0))
      = (shares.filter (fun p => !isInlier xs ys p)).map (fun p => p.x) := by
  rcases Nat.eq_zero_or_pos shares.length with h0 | hpos
  · have hnil : shares = [] := List.length_eq_zero.mp h0
    subst hnil
    rfl
  · unfold wrongList
    rw [wrongList_fold shares (fun i => isInlier xs ys (shareAt shares i)) _ ?_ ?_
      shares.length le_rfl]
    · have h1 : (List.range shares.length).filter
            (fun i => !isInlier xs ys (shareAt shares i))
          = (List.range shares.length).filter
              ((fun p => !isInlier xs ys p) ∘ shareAt shares) := rfl
      have h2 : ((List.range shares.length).filter
            ((fun p => !isInlier xs ys p) ∘ shareAt shares)).map (fun i => (shareAt shares i).x)
          = (((List.range shares.length).filter
              ((fun p => !isInlier xs ys p) ∘ shareAt shares)).map (shareAt shares)).map
                (fun p => p.x) := by
        rw [List.map_map]; rfl
      rw [h1, h2, ← List.filter_map, map_shareAt_range]
    · cases hr : List.range shares.length with
      | nil => rw [List.range_eq_nil] at hr; omega
      | cons a l => rfl
    · intro i hi
      rw [List.getD_eq_getElem _ _ (by simpa using hi)]
      simp only [List.getElem_map, List.getElem_range]
      cases isInlier xs ys (shareAt shares i) <;> simp

theorem length_filter_not (shares : List Share) (xs ys : List Int) :
    (((shares.filter (fun p => !isInlier xs ys p)).map (fun p => p.x)).length : Int)
      = (shares.length : Int)
        - (((List.range shares.length).countP
            (fun t => isInlier xs ys (shareAt shares t)) : Nat) : Int) := by
  have h1 : (List.range shares.length).countP (fun t => isInlier xs ys (shareAt shares t))
      = shares.countP (fun p => isInlier xs ys p) := by
    conv_rhs => rw [← map_shareAt_range shares]
    rw [List.countP_map]
    rfl
  have h2 := List.length_eq_countP_add_countP (fun p => isInlier xs ys p) shares
  rw [h1, List.length_map, ← List.countP_eq_length_filter]
  have h3 : shares.countP (fun p => !isInlier xs ys p)
      = shares.countP (fun a => decide ¬ (isInlier xs ys a = true)) := by
    congr 1
    funext p
    cases isInlier xs ys p <;> simp
  omega

theorem isSubset_le (n : Nat) (k : Int) (t : List Nat) (h : IsSubset n k t) : k ≤ (n : Int) := by
  have h1 := (sublist_range_iff n t).mpr ⟨h.2.1, h.2.2⟩
  have h2 := h1.length_le
  rw [List.length_range] at h2
  have h3 := h.1
  omega

theorem search_of_valid (shares : List Share) (k : Int)
    (h : ∃ t, IsSubset shares.length k t ∧ validSubset shares t) :
    ∃ L1 s L2, combosInt k (List.range shares.length) = L1 ++ s :: L2
        ∧ validSubset shares s
        ∧ search shares k = candidate shares s
        ∧ (∀ t ∈ L1, validSubset shares t → inlierCount shares t < inlierCount shares s)
        ∧ (∀ t ∈ L2, validSubset shares t → inlierCount shares t ≤ inlierCount shares s) := by
  rcases search_cases shares k with ⟨_, hno⟩ | hyes
  · obtain ⟨t, ht, hv⟩ := h
    exact absurd hv (hno t ht)
  · exact hyes

theorem scenarioB_search :
    search scenarioB 3
      = { bestSecret := 993, bestInliers := 3, bestSubset := [0, 1, 2],
          bestInlierMask := [1, 1, 1, 0] } := by
  decide

theorem scenarioB_run : reconstruct scenarioB 3 = RunResult.printed 993 [4] := by
  decide

theorem subsetXs_nodup (shares : List Share) (k : Int) (t : List Nat)
    (hnd : (shares.map (fun p => p.x)).Nodup) (ht : IsSubset shares.length k t) :
    (subsetXs shares t).Nodup := by
  have hsub := (sublist_range_iff shares.length t).mpr ⟨ht.2.1, ht.2.2⟩
  have hmap : (List.range shares.length).map (fun pos => (shareAt shares pos).x)
      = shares.map (fun p => p.x) := by
    conv_rhs => rw [← map_shareAt_range shares]
    rw [List.map_map]
    rfl
  have h2 := List.Sublist.map (fun pos => (shareAt shares pos).x) hsub
  rw [hmap] at h2
  exact List.Nodup.sublist h2 hnd

theorem shareAt_mem (shares : List Share) (pos : Nat) (h : pos < shares.length) :
    shareAt shares pos ∈ shares := by
  unfold shareAt
  rw [List.getD_eq_getElem _ _ h]
  exact List.getElem_mem h

theorem subsetYs_poly (shares : List Share) (k : Int) (t : List Nat) (cs : List Int)
    (hy : ∀ p ∈ shares, p.y = polyEval cs p.x) (ht : IsSubset shares.length k t) :
    subsetYs shares t = (subsetXs shares t).map (polyEval cs) := by
  unfold subsetYs subsetXs
  rw [List.map_map]
  apply List.map_congr_left
  intro pos hpos
  exact hy _ (shareAt_mem shares pos (ht.2.2 pos hpos))

theorem isSubset_range (n k : Nat) (h : k ≤ n) : IsSubset n (k : Int) (List.range k) := by
  refine ⟨by simp, List.pairwise_lt_range k, ?_⟩
  intro p hp
  have := List.mem_range.mp hp
  omega

/-- With every share on the polynomial, every size-`k` subset passes the filter with secret
`P(0)` and counts every share as an inlier. -/
theorem candidate_all_correct (k : Nat) (cs : List Int) (shares : List Share)
    (hdeg : cs.length ≤ k) (hnd : (shares.map (fun p => p.x)).Nodup)
    (hy : ∀ p ∈ shares, p.y = polyEval cs p.x)
    (t : List Nat) (ht : IsSubset shares.length (k : Int) t) :
    validSubset shares t ∧
    candidate shares t
      = { bestSecret := polyEval cs 0, bestInliers := (shares.length : Int), bestSubset := t,
          bestInlierMask := (List.range shares.length).map (fun _ => (1 : Int)) } := by
  have hxs := subsetXs_nodup shares k t hnd ht
  have hys := subsetYs_poly shares k t cs hy ht
  have hlen : (subsetXs shares t).length = k := by
    have := ht.1
    simp only [subsetXs, List.length_map]
    omega
  have hp0 := interpolate_P0_poly cs (subsetXs shares t) (by omega) hxs
  have hin : ∀ p ∈ shares,
      isInlier (subsetXs shares t) ((subsetXs shares t).map (polyEval cs)) p = true := by
    intro p hp
    unfold isInlier
    rw [interpolate_eval_poly cs (subsetXs shares t) (by omega) hxs p.x]
    simp [hy p hp]
  have hin' : ∀ i ∈ List.range shares.length,
      isInlier (subsetXs shares t) ((subsetXs shares t).map (polyEval cs)) (shareAt shares i)
        = true :=
    fun i hi => hin _ (shareAt_mem shares i (List.mem_range.mp hi))
  constructor
  · unfold validSubset
    rw [hys, hp0]
    rfl
  · unfold candidate inlierCount inlierMask
    rw [hys, hp0, countInliers_eq]
    simp only
    congr 1
    · rw [List.countP_eq_length.mpr hin', List.length_range]
    · apply List.map_congr_left
      intro i hi
      rw [if_pos (hin' i hi)]

theorem wrongList_ones (shares : List Share) :
    wrongList shares ((List.range shares.length).map (fun _ => (1 : Int))) = [] := by
  have hfold : ∀ (mask : List Int), (∀ i, i < shares.length → mask.getD i 0 = 1) →
      ∀ l : List Nat, (∀ i ∈ l, i < shares.length) → ∀ out : List Int,
      l.foldl (fun out i =>
        if (!mask.isEmpty && mask.getD i 0 == 0) = true then out ++ [(shareAt shares i).x]
        else out) out = out := by
    intro mask hmask l
    induction l with
    | nil => intro _ out; rfl
    | cons a l ih =>
      intro hl out
      rw [List.foldl_cons, hmask a (hl a (List.mem_cons_self a l))]
      simp only [show ((1 : Int) == 0) = false from rfl, Bool.and_false, Bool.false_eq_true,
        if_false]
      exact ih (fun i hi => hl i (List.mem_cons_of_mem a hi)) out
  unfold wrongList
  apply hfold
  · intro i hi
    rw [List.getD_eq_getElem _ _ (by simpa using hi)]
    simp
  · intro i hi
    exact List.mem_range.mp hi

/-! ## Further lemmas -/

namespace Fraction

theorem canonical_ofRat (q : ℚ) : Canonical (ofRat q) := by
  refine ⟨?_, ?_, ?_⟩
  · have := ofRat_den_pos q; omega
  · simp only [ofRat, Int.gcd, Int.natAbs_cast]
    exact q.reduced
  · intro h
    rw [(ofRat_num_eq_zero q).mp h]
    rfl

theorem Canonical.eq_ofRat {f : Fraction} (h : Canonical f) :
    f = ofRat ((f.num : ℚ) / (f.den : ℚ)) := by
  obtain ⟨n, d⟩ := f
  obtain ⟨h1, h2, _⟩ := h
  simp only at h1 h2
  have hd : 0 < d := by omega
  have hcop : Nat.Coprime n.natAbs d.natAbs := h2
  simp only [ofRat]
  rw [Rat.num_div_eq_of_coprime hd hcop, Rat.den_div_eq_of_coprime hd hcop]

theorem val_ofRat (q : ℚ) : val (ofRat q) = q := by
  simp only [val, ofRat]
  exact_mod_cast Rat.num_div_den q

theorem Canonical.eq_ofRat_val {f : Fraction} (h : Canonical f) : f = ofRat (val f) :=
  h.eq_ofRat

theorem sub_ofRat (p q : ℚ) : sub (ofRat p) (ofRat q) = ofRat (p - q) := by
  unfold sub
  have hden : ((ofRat p).den * (ofRat q).den) ≠ 0 := by
    simp [ofRat]
  rw [normalize_ne_zero _ _ hden]
  congr 1
  simp only [ofRat]
  push_cast
  have hp : (p.den : ℚ) ≠ 0 := by exact_mod_cast p.den_nz
  have hq : (q.den : ℚ) ≠ 0 := by exact_mod_cast q.den_nz
  conv_rhs => rw [← Rat.num_div_den p, ← Rat.num_div_den q]
  field_simp
  ring

theorem div_ofRat (p q : ℚ) (hq0 : q ≠ 0) : div (ofRat p) (ofRat q) = ofRat (p / q) := by
  unfold div
  have hqn : q.num ≠ 0 := Rat.num_ne_zero.mpr hq0
  have hden : ((ofRat p).den * (ofRat q).num) ≠ 0 := by
    simp [ofRat, hqn]
  rw [normalize_ne_zero _ _ hden]
  congr 1
  simp only [ofRat]
  push_cast
  have hp : (p.den : ℚ) ≠ 0 := by exact_mod_cast p.den_nz
  have hq : (q.den : ℚ) ≠ 0 := by exact_mod_cast q.den_nz
  have hqn' : (q.num : ℚ) ≠ 0 := by exact_mod_cast hqn
  conv_rhs => rw [← Rat.num_div_den p, ← Rat.num_div_den q]
  field_simp

theorem Canonical.num_ne_zero_iff {f : Fraction} (h : Canonical f) : f.num ≠ 0 ↔ val f ≠ 0 := by
  rw [h.eq_ofRat_val, val_ofRat, Ne, ofRat_num_eq_zero]

theorem opEq_self (a : Fraction) : opEq a a = true := by
  simp [opEq]

/-- What `normalize` leaves of a pair with denominator `0`. -/
theorem normalize_den_zero_eq (n : Int) :
    normalize { num := n, den := 0 }
      = if n = 0 then { num := 0, den := 1 } else { num := Int.sign n, den := 0 } := by
  by_cases hn : n = 0
  · subst hn
    rw [if_pos rfl]
    exact normalize_zero_num 0
  · rw [if_neg hn]
    unfold normalize
    have hg : igcd n 0 = ((n.natAbs : Nat) : Int) := by
      rw [igcd_eq_gcd]; simp
    have hg0 : ((n.natAbs : Nat) : Int) ≠ 0 := by omega
    simp only [lt_self_iff_false, if_false, hn, hg, ne_eq, hg0, not_false_eq_true, if_true]
    congr 1
    · rw [Int.tdiv_eq_ediv_of_dvd (by simp)]
      rcases lt_or_gt_of_ne hn with hneg | hpos
      · have h1 : ((n.natAbs : Nat) : Int) = -n := by omega
        rw [h1, Int.ediv_neg, Int.ediv_self hn, Int.sign_eq_neg_one_of_neg hneg]
      · have h1 : ((n.natAbs : Nat) : Int) = n := by omega
        rw [h1, Int.ediv_self hn, Int.sign_eq_one_of_pos hpos]
    · simp

end Fraction

theorem char_le_iff (a b : Char) : a ≤ b ↔ a.toNat ≤ b.toNat := by
  rw [Char.le_def]
  exact Iff.rfl

theorem isDigit_iff (c : Char) : c.isDigit = true ↔ 48 ≤ c.toNat ∧ c.toNat ≤ 57 := by
  unfold Char.isDigit
  simp only [Bool.and_eq_true, decide_eq_true_eq, ge_iff_le]
  exact Iff.rfl

theorem isLower_iff (c : Char) : c.isLower = true ↔ 97 ≤ c.toNat ∧ c.toNat ≤ 122 := by
  unfold Char.isLower
  simp only [Bool.and_eq_true, decide_eq_true_eq, ge_iff_le]
  exact Iff.rfl

theorem isUpper_iff (c : Char) : c.isUpper = true ↔ 65 ≤ c.toNat ∧ c.toNat ≤ 90 := by
  unfold Char.isUpper
  simp only [Bool.and_eq_true, decide_eq_true_eq, ge_iff_le]
  exact Iff.rfl

/-- The source's `digitVal` is the specification's digit value, with `-1` for none. -/
theorem digitVal_eq_spec (c : Char) :
    digitVal c = match specDigit c with
      | some d => (d : Int)
      | none => -1 := by
  unfold digitVal specDigit
  have h0 : '0'.toNat = 48 := by decide
  have h9 : '9'.toNat = 57 := by decide
  have ha : 'a'.toNat = 97 := by decide
  have hz : 'z'.toNat = 122 := by decide
  have hA : 'A'.toNat = 65 := by decide
  have hZ : 'Z'.toNat = 90 := by decide
  simp only [char_le_iff, h0, h9, ha, hz, hA, hZ]
  by_cases h1 : 48 ≤ c.toNat ∧ c.toNat ≤ 57
  · rw [if_pos h1, if_pos ((isDigit_iff c).mpr h1)]
    simp only [Nat.cast_sub h1.1]
  · rw [if_neg h1, if_neg (fun h => h1 ((isDigit_iff c).mp h))]
    by_cases h2 : 97 ≤ c.toNat ∧ c.toNat ≤ 122
    · rw [if_pos h2, if_pos ((isLower_iff c).mpr h2)]
      simp only [Nat.cast_add, Nat.cast_sub h2.1]
      rfl
    · rw [if_neg h2, if_neg (fun h => h2 ((isLower_iff c).mp h))]
      by_cases h3 : 65 ≤ c.toNat ∧ c.toNat ≤ 90
      · rw [if_pos h3, if_pos ((isUpper_iff c).mpr h3)]
        simp only [Nat.cast_add, Nat.cast_sub h3.1]
        rfl
      · rw [if_neg h3, if_neg (fun h => h3 ((isUpper_iff c).mp h))]

theorem isSeparator_iff (c : Char) : isSeparator c = true ↔ c = '_' ∨ c = ' ' := by
  simp [isSeparator]

theorem positional_nonneg (base : Int) : ∀ ds : List Nat, (∀ d ∈ ds, (d : Int) < base) →
    0 ≤ positional base ds
  | [], _ => le_rfl
  | d :: ds, h => by
    have hb : 0 ≤ base := by
      have := h d (List.mem_cons_self d ds)
      omega
    have h1 := positional_nonneg base ds (fun e he => h e (List.mem_cons_of_mem d he))
    have h2 : 0 ≤ (d : Int) * base ^ ds.length :=
      mul_nonneg (Int.natCast_nonneg d) (pow_nonneg hb _)
    simp only [positional]
    omega

/-- The loop of `parseBase` on every remaining input and every accumulated value. -/
theorem parseBaseLoop_spec (base : Int) : ∀ (l : List Char) (v : Int),
    (invalidLiteral l base → parseBaseLoop base l v = Except.error "Invalid digit for base")
    ∧ (¬ invalidLiteral l base →
        parseBaseLoop base l v
          = Except.ok (v * base ^ (literalDigits l).length + positional base (literalDigits l))
        ∧ ∀ d ∈ literalDigits l, (d : Int) < base) := by
  intro l
  induction l with
  | nil =>
    intro v
    refine ⟨fun h => ?_, fun _ => ⟨?_, ?_⟩⟩
    · obtain ⟨c, hc, _⟩ := h
      simp at hc
    · simp [parseBaseLoop, literalDigits, positional]
    · simp [literalDigits]
  | cons c rest ih =>
    intro v
    by_cases hsep : c = '_' ∨ c = ' '
    · have hs : isSeparator c = true := (isSeparator_iff c).mpr hsep
      have hbad : invalidLiteral (c :: rest) base ↔ invalidLiteral rest base := by
        unfold invalidLiteral
        simp [hs]
      have hdig : literalDigits (c :: rest) = literalDigits rest := by
        simp [literalDigits, hs]
      rw [parseBaseLoop, if_pos hsep, hbad, hdig]
      exact ih v
    · have hs : isSeparator c = false := by
        cases h : isSeparator c
        · rfl
        · exact absurd ((isSeparator_iff c).mp h) hsep
      rw [parseBaseLoop, if_neg hsep]
      have hdv := digitVal_eq_spec c
      cases hspec : specDigit c with
      | none =>
        rw [hspec] at hdv
        simp only at hdv
        have hbad : invalidLiteral (c :: rest) base :=
          ⟨c, List.mem_cons_self c rest, hs, Or.inl hspec⟩
        rw [if_pos (by omega)]
        exact ⟨fun _ => rfl, fun h => absurd hbad h⟩
      | some n =>
        rw [hspec] at hdv
        simp only at hdv
        have hn0 : (0 : Int) ≤ (n : Int) := Int.natCast_nonneg n
        by_cases hge : base ≤ (n : Int)
        · have hbad : invalidLiteral (c :: rest) base :=
            ⟨c, List.mem_cons_self c rest, hs, Or.inr ⟨n, hspec, hge⟩⟩
          rw [if_pos (by omega)]
          exact ⟨fun _ => rfl, fun h => absurd hbad h⟩
        · rw [if_neg (by omega)]
          have hbad : invalidLiteral (c :: rest) base ↔ invalidLiteral rest base := by
            unfold invalidLiteral
            constructor
            · rintro ⟨e, he, hes, hed⟩
              rcases List.mem_cons.mp he with rfl | he'
              · rcases hed with h | ⟨d, hd1, hd2⟩
                · rw [hspec] at h; exact absurd h (by simp)
                · rw [hspec] at hd1
                  have : n = d := Option.some.inj hd1
                  omega
              · exact ⟨e, he', hes, hed⟩
            · rintro ⟨e, he, hes, hed⟩
              exact ⟨e, List.mem_cons_of_mem c he, hes, hed⟩
          have hdig : literalDigits (c :: rest) = n :: literalDigits rest := by
            simp [literalDigits, hs, hspec]
          rw [hbad, hdig]
          obtain ⟨ih1, ih2⟩ := ih (v * base + digitVal c)
          refine ⟨ih1, fun h => ?_⟩
          obtain ⟨h1, h2⟩ := ih2 h
          refine ⟨?_, ?_⟩
          · rw [h1, hdv]
            simp only [positional, List.length_cons]
            congr 1
            ring
          · intro d hd
            rcases List.mem_cons.mp hd with rfl | hd'
            · omega
            · exact h2 d hd'

theorem dfsVisits_of_loop (idxs : List Nat) (prune : Bool) (m : Nat)
    (hA : ∀ (depth start : Nat) (need : Int) (cur : List Nat) (acc : List (List Nat)),
      idxs.length - start = m → m ≤ depth → need ≠ 0 →
      (List.range' start (idxs.length - start)).foldl
          (fun a i => dfsVisits idxs prune depth (i + 1) (need - 1) (cur ++ [idxs.getD i 0]) a)
          acc
        = acc ++ (combosInt need (idxs.drop start)).map (fun s => cur ++ s))
    (depth start : Nat) (need : Int) (cur : List Nat) (acc : List (List Nat))
    (hm : idxs.length - start = m) (hstart : start ≤ idxs.length) (hd : m + 1 ≤ depth) :
    dfsVisits idxs prune depth start need cur acc
      = acc ++ (combosInt need (idxs.drop start)).map (fun s => cur ++ s) := by
  obtain ⟨d, rfl⟩ : ∃ d, depth = d + 1 := ⟨depth - 1, by omega⟩
  rw [dfsVisits]
  by_cases hprune : prune = true
      ∧ (cur.length : Int) + (idxs.length : Int) - (start : Int) < need
  · rw [if_pos hprune]
    have hlen : (idxs.drop start).length < need.toNat := by
      rw [List.length_drop]; omega
    have hneg : ¬ need < 0 := by omega
    simp [combosInt, hneg, combos_eq_nil _ _ hlen]
  · rw [if_neg hprune]
    by_cases h0 : need = 0
    · subst h0
      simp [combosInt, combos]
    · rw [if_neg h0]
      exact hA d start need cur acc hm (by omega) h0

theorem dfsVisits_loop (idxs : List Nat) (prune : Bool) :
    ∀ (m depth start : Nat) (need : Int) (cur : List Nat) (acc : List (List Nat)),
      idxs.length - start = m → m ≤ depth → need ≠ 0 →
      (List.range' start (idxs.length - start)).foldl
          (fun a i => dfsVisits idxs prune depth (i + 1) (need - 1) (cur ++ [idxs.getD i 0]) a)
          acc
        = acc ++ (combosInt need (idxs.drop start)).map (fun s => cur ++ s) := by
  intro m
  induction m with
  | zero =>
    intro depth start need cur acc hm _ hne
    have hdrop : idxs.drop start = [] := List.drop_eq_nil_of_le (by omega)
    rw [hm, hdrop, combosInt_nil need hne]
    simp
  | succ m ih =>
    intro depth start need cur acc hm hd hne
    have hlt : start < idxs.length := by omega
    have hdrop : idxs.drop start = idxs[start] :: idxs.drop (start + 1) :=
      List.drop_eq_getElem_cons hlt
    have hget : idxs.getD start 0 = idxs[start] := List.getD_eq_getElem _ _ hlt
    have hm1 : idxs.length - (start + 1) = m := by omega
    have hrange : List.range' start (idxs.length - start)
        = start :: List.range' (start + 1) (idxs.length - (start + 1)) := by
      rw [hm, hm1, List.range'_succ]
    rw [hrange, List.foldl_cons, ih depth (start + 1) need cur _ hm1 (by omega) hne,
      dfsVisits_of_loop idxs prune m ih depth (start + 1) (need - 1)
        (cur ++ [idxs.getD start 0]) acc hm1 (by omega) hd,
      hdrop, combosInt_cons need hne, List.map_append, List.map_map, hget, List.append_assoc]
    congr 2
    apply List.map_congr_left
    intro s _
    simp

/-- The recorded subsets, pruned or not, are the size-`k` sublists in visiting order. -/
theorem dfsVisits_eq (n : Nat) (k : Int) (prune : Bool) :
    dfsVisits (List.range n) prune (n + 1) 0 k [] [] = combosInt k (List.range n) := by
  rw [dfsVisits_of_loop (List.range n) prune (List.range n).length
    (fun depth start need cur acc h1 h2 h3 =>
      dfsVisits_loop _ prune _ depth start need cur acc h1 h2 h3)
    (n + 1) 0 k [] [] (by simp) (by simp) (by simp)]
  simp

theorem combos_length : ∀ (k : Nat) (l : List Nat), (combos k l).length = Nat.choose l.length k
  | 0, l => by simp [combos]
  | k + 1, [] => by simp [combos]
  | k + 1, a :: l => by
    simp only [combos, List.length_append, List.length_map, List.length_cons,
      combos_length k l, combos_length (k + 1) l, Nat.choose_succ_succ]

theorem lex_lt_irrefl : ∀ (s : List Nat), ¬ List.Lex (· < ·) s s
  | [], h => by cases h
  | a :: s, h => by
    cases h with
    | cons h' => exact lex_lt_irrefl s h'
    | rel h' => exact absurd h' (lt_irrefl a)

theorem nodup_of_lex (L : List (List Nat)) (h : L.Pairwise (List.Lex (· < ·))) : L.Nodup :=
  h.imp_of_mem (fun {a b} _ _ hab heq => by
    subst heq
    exact lex_lt_irrefl a hab)

theorem findHit_isSome (xs : List Int) (j : Nat) (hj : j < xs.length) :
    ∃ i, findHit xs (xs.getD j 0) = some i := by
  cases h : findHit xs (xs.getD j 0) with
  | some i => exact ⟨i, rfl⟩
  | none =>
    unfold findHit at h
    rw [List.find?_eq_none] at h
    have := h j (List.mem_range.mpr hj)
    simp at this

/-- At a node of pairwise distinct `xs` the shortcut of `interpolate_eval` returns the node's
own value. -/
theorem interpolate_eval_node (xs ys : List Int) (hnd : xs.Nodup) (j : Nat)
    (hj : j < xs.length) :
    interpolate_eval xs ys (xs.getD j 0) = Fraction.ofInt (ys.getD j 0) := by
  obtain ⟨i, hi⟩ := findHit_isSome xs j hj
  obtain ⟨hil, hx⟩ := findHit_some hi
  have hij : j = i := by
    by_contra hne
    exact getD_ne_of_nodup hnd hj hil hne hx
  rw [interpolate_eval_eq, hi, hij]

theorem subsetXs_getD (shares : List Share) (s : List Nat) (j : Nat) (hj : j < s.length) :
    (subsetXs shares s).getD j 0 = (shareAt shares s[j]).x := by
  unfold subsetXs
  rw [List.getD_eq_getElem _ _ (by simpa using hj)]
  simp

theorem subsetYs_getD (shares : List Share) (s : List Nat) (j : Nat) (hj : j < s.length) :
    (subsetYs shares s).getD j 0 = (shareAt shares s[j]).y := by
  unfold subsetYs
  rw [List.getD_eq_getElem _ _ (by simpa using hj)]
  simp

/-- With pairwise distinct `x`, every share of a subset is an inlier of that subset. -/
theorem isInlier_of_mem (shares : List Share) (k : Int) (s : List Nat)
    (hnd : (shares.map (fun p => p.x)).Nodup) (hs : IsSubset shares.length k s)
    (pos : Nat) (hpos : pos ∈ s) :
    isInlier (subsetXs shares s) (subsetYs shares s) (shareAt shares pos) = true := by
  obtain ⟨j, hj, rfl⟩ := List.getElem_of_mem hpos
  have hxs := subsetXs_nodup shares k s hnd hs
  have hjx : j < (subsetXs shares s).length := by simpa [subsetXs] using hj
  have h := interpolate_eval_node (subsetXs shares s) (subsetYs shares s) hxs j hjx
  rw [subsetXs_getD shares s j hj, subsetYs_getD shares s j hj] at h
  unfold isInlier
  rw [h]
  simp [Fraction.ofInt]

theorem map_x_getD (shares : List Share) (i : Nat) (hi : i < shares.length) :
    (shares.map (fun p => p.x)).getD i 0 = (shareAt shares i).x := by
  unfold shareAt
  rw [List.getD_eq_getElem _ _ (by simpa using hi), List.getD_eq_getElem _ _ hi]
  simp

theorem shareAt_inj (shares : List Share) (hnd : (shares.map (fun p => p.x)).Nodup)
    (i j : Nat) (hi : i < shares.length) (hj : j < shares.length)
    (h : (shareAt shares i).x = (shareAt shares j).x) : i = j := by
  by_contra hne
  refine getD_ne_of_nodup hnd (by simpa using hi) (by simpa using hj) hne ?_
  rw [map_x_getD shares i hi, map_x_getD shares j hj]
  exact h

theorem share_eq_of_x (shares : List Share) (hnd : (shares.map (fun p => p.x)).Nodup)
    (p q : Share) (hp : p ∈ shares) (hq : q ∈ shares) (h : p.x = q.x) : p = q :=
  List.inj_on_of_nodup_map hnd hp hq h

theorem countInliers_range (shares : List Share) (xs ys : List Int) :
    (List.range shares.length).countP (fun t => isInlier xs ys (shareAt shares t))
      = shares.countP (fun p => isInlier xs ys p) := by
  conv_rhs => rw [← map_shareAt_range shares]
  rw [List.countP_map]
  rfl

/-- For pairwise distinct `xs`, `interpolate_eval` is evaluation of one polynomial over `ℚ` of
degree below `xs.length` that takes the values `ys` at the nodes. -/
theorem exists_interpolant (xs ys : List Int) (hnd : xs.Nodup) :
    ∃ Q : Polynomial ℚ, Q.degree < (xs.length : WithBot ℕ)
      ∧ (∀ j, j < xs.length → Q.eval ((xs.getD j 0 : Int) : ℚ) = ((ys.getD j 0 : Int) : ℚ))
      ∧ ∀ q : Int, interpolate_eval xs ys q = Fraction.ofRat (Q.eval (q : ℚ)) := by
  have hinj := injOn_of_nodup xs hnd
  have hnode : ∀ j, j < xs.length →
      (Lagrange.interpolate (Finset.range xs.length) (fun i : Nat => ((xs.getD i 0 : Int) : ℚ))
        (fun i : Nat => ((ys.getD i 0 : Int) : ℚ))).eval ((xs.getD j 0 : Int) : ℚ)
        = ((ys.getD j 0 : Int) : ℚ) := by
    intro j hj
    exact Lagrange.eval_interpolate_at_node (fun i : Nat => ((ys.getD i 0 : Int) : ℚ)) hinj
      (Finset.mem_range.mpr hj)
  refine ⟨Lagrange.interpolate (Finset.range xs.length)
      (fun i : Nat => ((xs.getD i 0 : Int) : ℚ)) (fun i : Nat => ((ys.getD i 0 : Int) : ℚ)),
    ?_, hnode, ?_⟩
  · have h := Lagrange.degree_interpolate_lt (fun i : Nat => ((ys.getD i 0 : Int) : ℚ)) hinj
    rwa [Finset.card_range] at h
  · intro q
    rw [interpolate_eval_eq]
    cases hf : findHit xs q with
    | some i =>
      obtain ⟨hi, hx⟩ := findHit_some hf
      simp only []
      rw [hx, hnode i hi, Fraction.ofInt_eq_ofRat]
    | none =>
      simp only []
      rw [lagrangeSum_eq xs ys hnd q, Lagrange.interpolate_apply, Polynomial.eval_finset_sum]
      congr 1
      refine Finset.sum_congr rfl (fun i _ => ?_)
      rw [Polynomial.eval_mul, Polynomial.eval_C, basis_eval]

theorem ofRat_eq_int_iff (r : ℚ) (y : Int) :
    ((Fraction.ofRat r).den = 1 ∧ (Fraction.ofRat r).num = y) ↔ r = (y : ℚ) := by
  constructor
  · rintro ⟨h1, h2⟩
    have h3 := Fraction.val_ofRat r
    rw [Fraction.val, h1, h2] at h3
    rw [← h3]
    simp
  · intro h
    rw [h, Fraction.ofRat_intCast]
    exact ⟨rfl, rfl⟩

theorem countP_split (p q : Nat → Bool) : ∀ l : List Nat,
    l.countP p ≤ l.countP (fun i => p i && q i) + l.countP (fun i => !q i)
  | [] => by simp
  | a :: l => by
    have ih := countP_split p q l
    simp only [List.countP_cons]
    cases hp : p a <;> cases hq : q a <;> simp <;> omega

/-- A subset holding a share off the polynomial counts fewer than `k` shares on the polynomial
as inliers. -/
theorem bad_subset_bound (k : Nat) (cs : List Int) (shares : List Share)
    (hdeg : cs.length ≤ k) (hnd : (shares.map (fun p => p.x)).Nodup)
    (t : List Nat) (ht : IsSubset shares.length (k : Int) t)
    (b : Nat) (hb : b ∈ t)
    (hbad : (shareAt shares b).y ≠ polyEval cs (shareAt shares b).x) :
    (List.range shares.length).countP
        (fun i => isInlier (subsetXs shares t) (subsetYs shares t) (shareAt shares i)
          && decide ((shareAt shares i).y = polyEval cs (shareAt shares i).x)) < k := by
  by_contra hcon
  have hxs := subsetXs_nodup shares k t hnd ht
  have hlen : (subsetXs shares t).length = k := by
    have := ht.1
    simp only [subsetXs, List.length_map]
    omega
  obtain ⟨Q, hQdeg, hQnode, hQeval⟩ :=
    exists_interpolant (subsetXs shares t) (subsetYs shares t) hxs
  obtain ⟨f, hfcoeff, hfeval⟩ := exists_poly cs
  rw [hlen] at hQdeg
  have hfdeg : f.degree < (k : WithBot ℕ) :=
    (Polynomial.degree_lt_iff_coeff_zero _ _).mpr (fun m hm => hfcoeff m (le_trans hdeg hm))
  have hnodupS : ((List.range shares.length).filter
      (fun i => isInlier (subsetXs shares t) (subsetYs shares t) (shareAt shares i)
        && decide ((shareAt shares i).y = polyEval cs (shareAt shares i).x))).Nodup :=
    List.Nodup.filter _ (List.nodup_range _)
  obtain ⟨S, hS⟩ : ∃ S : Finset Nat, S = ((List.range shares.length).filter
      (fun i => isInlier (subsetXs shares t) (subsetYs shares t) (shareAt shares i)
        && decide ((shareAt shares i).y = polyEval cs (shareAt shares i).x))).toFinset :=
    ⟨_, rfl⟩
  have hcard : S.card = (List.range shares.length).countP
      (fun i => isInlier (subsetXs shares t) (subsetYs shares t) (shareAt shares i)
        && decide ((shareAt shares i).y = polyEval cs (shareAt shares i).x)) := by
    rw [hS, List.toFinset_card_of_nodup hnodupS, ← List.countP_eq_length_filter]
  have hmemS : ∀ i, i ∈ S →
      i < shares.length
        ∧ isInlier (subsetXs shares t) (subsetYs shares t) (shareAt shares i) = true
        ∧ (shareAt shares i).y = polyEval cs (shareAt shares i).x := by
    intro i hi
    rw [hS, List.mem_toFinset, List.mem_filter, List.mem_range] at hi
    simpa using hi
  have hzero : Q - f = 0 := by
    refine Polynomial.eq_zero_of_degree_lt_of_eval_index_eq_zero
      (v := fun i : Nat => (((shareAt shares i).x : Int) : ℚ)) S ?_ ?_ ?_
    · intro i hi j hj hij
      have hi' := hmemS i hi
      have hj' := hmemS j hj
      have hij' : (((shareAt shares i).x : Int) : ℚ) = (((shareAt shares j).x : Int) : ℚ) := hij
      have hx : (shareAt shares i).x = (shareAt shares j).x := by exact_mod_cast hij'
      exact shareAt_inj shares hnd i j hi'.1 hj'.1 hx
    · refine lt_of_le_of_lt (Polynomial.degree_sub_le Q f) ?_
      refine lt_of_lt_of_le (max_lt hQdeg hfdeg) ?_
      rw [hcard]
      exact_mod_cast Nat.le_of_not_lt hcon
    · intro i hi
      obtain ⟨_, hin, hgood⟩ := hmemS i hi
      unfold isInlier at hin
      rw [hQeval, decide_eq_true_iff, ofRat_eq_int_iff] at hin
      rw [Polynomial.eval_sub, hin, hfeval, hgood, sub_self]
  obtain ⟨j, hj, rfl⟩ := List.getElem_of_mem hb
  have hjx : j < (subsetXs shares t).length := by
    have := ht.1
    omega
  have h1 := hQnode j hjx
  rw [subsetXs_getD shares t j hj, subsetYs_getD shares t j hj] at h1
  have h2 : Q = f := sub_eq_zero.mp hzero
  rw [h2, hfeval] at h1
  exact hbad (by exact_mod_cast h1.symm)

/-- A subset of shares on the polynomial passes the filter with secret `P(0)`, and its inliers
are exactly the shares on the polynomial. -/
theorem candidate_all_good (k : Nat) (cs : List Int) (shares : List Share)
    (hdeg : cs.length ≤ k) (hnd : (shares.map (fun p => p.x)).Nodup)
    (t : List Nat) (ht : IsSubset shares.length (k : Int) t)
    (hgood : ∀ pos ∈ t, (shareAt shares pos).y = polyEval cs (shareAt shares pos).x) :
    validSubset shares t
      ∧ (interpolate_P0 (subsetXs shares t) (subsetYs shares t)).num = polyEval cs 0
      ∧ ∀ p : Share, isInlier (subsetXs shares t) (subsetYs shares t) p
          = decide (p.y = polyEval cs p.x) := by
  have hxs := subsetXs_nodup shares k t hnd ht
  have hys : subsetYs shares t = (subsetXs shares t).map (polyEval cs) := by
    unfold subsetYs subsetXs
    rw [List.map_map]
    apply List.map_congr_left
    intro pos hpos
    exact hgood pos hpos
  have hlen : (subsetXs shares t).length = k := by
    have := ht.1
    simp only [subsetXs, List.length_map]
    omega
  have hp0 := interpolate_P0_poly cs (subsetXs shares t) (by omega) hxs
  refine ⟨?_, ?_, ?_⟩
  · unfold validSubset
    rw [hys, hp0]
    rfl
  · rw [hys, hp0]
  · intro p
    unfold isInlier
    rw [hys, interpolate_eval_poly cs (subsetXs shares t) (by omega) hxs p.x]
    simp only [true_and]
    by_cases h : p.y = polyEval cs p.x
    · simp [h]
    · have h' : ¬ polyEval cs p.x = p.y := fun e => h e.symm
      simp [h, h']

theorem inlierCount_eq_countP (shares : List Share) (t : List Nat) :
    inlierCount shares t
      = (((List.range shares.length).countP
          (fun i => isInlier (subsetXs shares t) (subsetYs shares t) (shareAt shares i)) : Nat)
          : Int) := by
  unfold inlierCount
  rw [countInliers_eq]

theorem countP_range_shareAt (shares : List Share) (p : Share → Bool) :
    (List.range shares.length).countP (fun i => p (shareAt shares i)) = shares.countP p := by
  conv_rhs => rw [← map_shareAt_range shares]
  rw [List.countP_map]
  rfl

theorem countP_not_add (shares : List Share) (p : Share → Bool) :
    shares.countP (fun q => !p q) = shares.length - shares.countP p := by
  have h := List.length_eq_countP_add_countP p shares
  have h3 : shares.countP (fun q => !p q) = shares.countP (fun a => decide ¬ (p a = true)) := by
    congr 1
    funext q
    cases p q <;> simp
  omega

/-- The first `k` positions of shares on the polynomial form a size-`k` subset. -/
theorem good_prefix_isSubset (k : Nat) (shares : List Share) (p : Share → Bool)
    (hk : k ≤ shares.countP p) :
    IsSubset shares.length (k : Int)
        (((List.range shares.length).filter (fun i => p (shareAt shares i))).take k)
      ∧ ∀ pos ∈ ((List.range shares.length).filter (fun i => p (shareAt shares i))).take k,
          p (shareAt shares pos) = true := by
  have hsub : (((List.range shares.length).filter (fun i => p (shareAt shares i))).take k).Sublist
      (List.range shares.length) :=
    (List.take_sublist _ _).trans (List.filter_sublist _)
  have hlen : (((List.range shares.length).filter (fun i => p (shareAt shares i))).take k).length
      = k := by
    rw [List.length_take, ← List.countP_eq_length_filter, countP_range_shareAt]
    omega
  obtain ⟨h1, h2⟩ := (sublist_range_iff _ _).mp hsub
  refine ⟨⟨by rw [hlen], h1, h2⟩, ?_⟩
  intro pos hpos
  have := List.mem_of_mem_take hpos
  exact (List.mem_filter.mp this).2

/-! ## The claims -/

/-- C1. Interpolation exactness at zero: for the integer polynomial `P` with coefficient list
`cs` of degree at most `k - 1` (`cs.length ≤ k`) and `k` pairwise distinct integers `xs`,
`interpolate_P0 xs ys` with `ys[i] = P(xs[i])` is the canonical pair `(P(0), 1)`.
(No lower bound on `k` is needed.) -/
theorem interpolate_P0_exact (k : Nat) (cs xs : List Int) (hlen : xs.length = k)
    (hdeg : cs.length ≤ k) (hnd : xs.Nodup) :
    interpolate_P0 xs (xs.map (polyEval cs)) = { num := polyEval cs 0, den := 1 } := by
  exact interpolate_P0_poly cs xs (by omega) hnd

theorem interpolate_P0_exact_witness :
    [1, 2, 3].length = 3 ∧ [5, 2].length ≤ 3 ∧ [1, 2, 3].Nodup ∧
    interpolate_P0 [1, 2, 3] ([1, 2, 3].map (polyEval [5, 2]))
      = { num := polyEval [5, 2] 0, den := 1 } :=
  ⟨by decide, by decide, by decide,
    interpolate_P0_exact 3 [5, 2] [1, 2, 3] (by decide) (by decide) (by decide)⟩

/-- C2. Monotonic scoring: whenever at least one size-`k` subset is valid, the selected subset
is a valid size-`k` subset, the reported inlier count is its inlier count, and no valid
size-`k` subset has a higher inlier count. -/
theorem search_score_max (shares : List Share) (k : Int)
    (h : ∃ t, IsSubset shares.length k t ∧ validSubset shares t) :
    IsSubset shares.length k (search shares k).bestSubset ∧
    validSubset shares (search shares k).bestSubset ∧
    (search shares k).bestInliers = inlierCount shares (search shares k).bestSubset ∧
    ∀ t, IsSubset shares.length k t → validSubset shares t →
      inlierCount shares t ≤ (search shares k).bestInliers := by
  obtain ⟨L1, s, L2, hL, hv, heq, h1, h2⟩ := search_of_valid shares k h
  have hs : IsSubset shares.length k s :=
    (mem_combosInt_range _ _ _).mp (by rw [hL]; simp)
  rw [heq]
  refine ⟨hs, hv, rfl, ?_⟩
  intro t ht hvt
  have hmem : t ∈ L1 ++ s :: L2 := hL ▸ (mem_combosInt_range _ _ _).mpr ht
  simp only [candidate]
  rcases List.mem_append.mp hmem with hin | hin
  · exact le_of_lt (h1 t hin hvt)
  · rcases List.mem_cons.mp hin with rfl | hin'
    · exact le_rfl
    · exact h2 t hin' hvt

theorem search_score_max_witness :
    (∃ t, IsSubset scenarioB.length 3 t ∧ validSubset scenarioB t) ∧
    (IsSubset scenarioB.length 3 (search scenarioB 3).bestSubset ∧
      validSubset scenarioB (search scenarioB 3).bestSubset ∧
      (search scenarioB 3).bestInliers = inlierCount scenarioB (search scenarioB 3).bestSubset ∧
      ∀ t, IsSubset scenarioB.length 3 t → validSubset scenarioB t →
        inlierCount scenarioB t ≤ (search scenarioB 3).bestInliers) :=
  ⟨⟨[0, 1, 3], by decide, by decide⟩,
    search_score_max scenarioB 3 ⟨[0, 1, 3], by decide, by decide⟩⟩

/-- C3, as stated, fails: on scenario B with `k = 3` the run does not print secret `5` with
wrong list `[3]`. -/
theorem scenarioB_not_as_stated :
    ¬ (reconstruct scenarioB 3 = RunResult.printed 5 [3]
        ∧ (search scenarioB 3).bestInliers = 3) := by
  rw [scenarioB_run]
  intro h
  exact absurd h.1 (by decide)

/-- C3, amended. On scenario B with `k = 3` every size-3 subset scores 3, so the first one
visited, positions `0, 1, 2` (which contains the corrupted share), is kept: the run prints
secret `993` and wrong list `[4]`, with winning inlier count 3. -/
theorem scenarioB_actual :
    reconstruct scenarioB 3 = RunResult.printed 993 [4]
      ∧ (search scenarioB 3).bestInliers = 3
      ∧ (search scenarioB 3).bestSubset = [0, 1, 2] := by
  rw [scenarioB_run, scenarioB_search]
  exact ⟨rfl, rfl, rfl⟩

/-- C4, as stated, fails: two shares, `k = 2`, no size-2 subset passes the integer filter, and
the run still prints a secret, `0`. -/
theorem no_valid_subset_still_prints :
    (2 : Int) ≤ (fractionalShares.length : Int)
      ∧ (∀ t ∈ combosInt 2 (List.range fractionalShares.length),
          ¬ validSubset fractionalShares t)
      ∧ reconstruct fractionalShares 2 = RunResult.printed 0 [] :=
  ⟨by decide, by decide, by decide⟩

/-- C4, amended. When at least `k` shares are supplied and no size-`k` subset passes the
integer filter, the run reports no failure: the accumulator keeps its initial values, and the
output is the initial `bestSecret`, `0`, with an empty wrong list. -/
theorem no_valid_subset_output (shares : List Share) (k : Int)
    (hk : k ≤ (shares.length : Int))
    (hno : ∀ t, IsSubset shares.length k t → ¬ validSubset shares t) :
    search shares k = Best.init ∧ reconstruct shares k = RunResult.printed 0 [] := by
  have hinit : search shares k = Best.init := by
    rcases search_cases shares k with ⟨heq, _⟩ | ⟨L1, s, L2, hL, hv, _⟩
    · exact heq
    · have hs : IsSubset shares.length k s :=
        (mem_combosInt_range _ _ _).mp (by rw [hL]; simp)
      exact absurd hv (hno s hs)
  refine ⟨hinit, ?_⟩
  unfold reconstruct
  rw [if_neg (by omega), hinit]
  simp only [Best.init, wrongList_nil]

theorem no_valid_subset_output_witness :
    (2 : Int) ≤ (fractionalShares.length : Int)
      ∧ (∀ t, IsSubset fractionalShares.length 2 t → ¬ validSubset fractionalShares t)
      ∧ search fractionalShares 2 = Best.init
      ∧ reconstruct fractionalShares 2 = RunResult.printed 0 [] :=
  have hno : ∀ t, IsSubset fractionalShares.length 2 t → ¬ validSubset fractionalShares t :=
    fun t ht => by
      have hmem := (mem_combosInt_range fractionalShares.length 2 t).mpr ht
      have hall : ∀ u ∈ combosInt 2 (List.range fractionalShares.length),
          ¬ validSubset fractionalShares u := by decide
      exact hall t hmem
  ⟨by decide, hno, no_valid_subset_output fractionalShares 2 (by decide) hno⟩

/-- C5, as stated, fails: the two shares `(1, 1)`, `(1, 1)` have the same `x`, yet
`interpolate_P0` on them passes the integer test (the two terms with denominator `0` add up to
the canonical zero) and the subset sets the reported secret and score. -/
theorem coincident_subset_selected :
    IsSubset coincidentShares.length 2 [0, 1]
      ∧ subsetXs coincidentShares [0, 1] = [1, 1]
      ∧ (interpolate_P0 (subsetXs coincidentShares [0, 1])
            (subsetYs coincidentShares [0, 1])).isInteger = true
      ∧ search coincidentShares 2
          = { bestSecret := 0, bestInliers := 2, bestSubset := [0, 1],
              bestInlierMask := [1, 1] } :=
  ⟨by decide, by decide, by decide, by decide⟩

/-- C5, amended. `interpolate_P0` has no coincident-`x` failure. On every `xs`, `ys` its result
has denominator `0`, and so fails the integer test, exactly when the number of positions `i`
with `ys[i] ≠ 0`, `xs[i]` repeated at another position and no other position holding `x = 0`
is odd; otherwise the result is canonical. The search skips a subset exactly when the
denominator is not `1`; with denominator `1` the subset is a candidate like any other. -/
theorem interpolate_P0_coincident (xs ys : List Int) :
    ((interpolate_P0 xs ys).den = 0
        ↔ Odd ((List.range xs.length).countP (infTerm xs ys)))
    ∧ ((interpolate_P0 xs ys).den = 0 → (interpolate_P0 xs ys).isInteger = false)
    ∧ ((interpolate_P0 xs ys).den ≠ 0 →
        0 < (interpolate_P0 xs ys).den
          ∧ Int.gcd (interpolate_P0 xs ys).num (interpolate_P0 xs ys).den = 1)
    ∧ ∀ (shares : List Share) (cur : List Nat) (st : Best),
        subsetXs shares cur = xs → subsetYs shares cur = ys →
        evalSubset shares cur st
          = if (interpolate_P0 xs ys).den = 1 ∧ st.bestInliers < inlierCount shares cur
            then candidate shares cur else st := by
  obtain ⟨hg, hden⟩ := interpolate_P0_kind xs ys xs.length
  refine ⟨hden, ?_, fun h => good_canonical hg h, ?_⟩
  · intro h
    unfold Fraction.isInteger
    rw [h]
    rfl
  · intro shares cur st hx hy
    subst hx
    subst hy
    rw [evalSubset_eq]
    simp only [validSubset_iff]

/-- C6. Deterministic tie-break: when some size-`k` subset is valid, the accumulator holds the
secret, score and mask of the selected subset, which is a valid size-`k` subset of maximal
inlier count, and every valid size-`k` subset of maximal inlier count is either the selected
one or lexicographically greater. -/
theorem search_tie_break (shares : List Share) (k : Int)
    (h : ∃ t, IsSubset shares.length k t ∧ validSubset shares t) :
    search shares k = candidate shares (search shares k).bestSubset ∧
    IsSubset shares.length k (search shares k).bestSubset ∧
    validSubset shares (search shares k).bestSubset ∧
    (∀ u, IsSubset shares.length k u → validSubset shares u →
      inlierCount shares u ≤ inlierCount shares (search shares k).bestSubset) ∧
    ∀ t, IsSubset shares.length k t → validSubset shares t →
      (∀ u, IsSubset shares.length k u → validSubset shares u →
        inlierCount shares u ≤ inlierCount shares t) →
      t = (search shares k).bestSubset ∨ List.Lex (· < ·) (search shares k).bestSubset t := by
  obtain ⟨L1, s, L2, hL, hv, heq, h1, h2⟩ := search_of_valid shares k h
  have hs : IsSubset shares.length k s :=
    (mem_combosInt_range _ _ _).mp (by rw [hL]; simp)
  have hlex := combosInt_lex k (List.range shares.length) (List.pairwise_lt_range _)
  rw [hL, List.pairwise_append] at hlex
  have hafter : ∀ b ∈ L2, List.Lex (· < ·) s b := (List.pairwise_cons.mp hlex.2.1).1
  have hbest : (search shares k).bestSubset = s := by rw [heq]; rfl
  rw [hbest]
  refine ⟨heq, hs, hv, ?_, ?_⟩
  · intro u hu hvu
    have hmem : u ∈ L1 ++ s :: L2 := hL ▸ (mem_combosInt_range _ _ _).mpr hu
    rcases List.mem_append.mp hmem with hin | hin
    · exact le_of_lt (h1 u hin hvu)
    · rcases List.mem_cons.mp hin with rfl | hin'
      · exact le_rfl
      · exact h2 u hin' hvu
  · intro t ht hvt hmax
    have hmem : t ∈ L1 ++ s :: L2 := hL ▸ (mem_combosInt_range _ _ _).mpr ht
    rcases List.mem_append.mp hmem with hin | hin
    · have hlt := h1 t hin hvt
      have hle := hmax s hs hv
      omega
    · rcases List.mem_cons.mp hin with rfl | hin'
      · exact Or.inl rfl
      · exact Or.inr (hafter t hin')

theorem search_tie_break_witness :
    (∃ t, IsSubset scenarioB.length 3 t ∧ validSubset scenarioB t) ∧
    (search scenarioB 3 = candidate scenarioB (search scenarioB 3).bestSubset ∧
    IsSubset scenarioB.length 3 (search scenarioB 3).bestSubset ∧
    validSubset scenarioB (search scenarioB 3).bestSubset ∧
    (∀ u, IsSubset scenarioB.length 3 u → validSubset scenarioB u →
      inlierCount scenarioB u ≤ inlierCount scenarioB (search scenarioB 3).bestSubset) ∧
    ∀ t, IsSubset scenarioB.length 3 t → validSubset scenarioB t →
      (∀ u, IsSubset scenarioB.length 3 u → validSubset scenarioB u →
        inlierCount scenarioB u ≤ inlierCount scenarioB t) →
      t = (search scenarioB 3).bestSubset
        ∨ List.Lex (· < ·) (search scenarioB 3).bestSubset t) :=
  ⟨⟨[1, 2, 3], by decide, by decide⟩,
    search_tie_break scenarioB 3 ⟨[1, 2, 3], by decide, by decide⟩⟩

/-- C7. The run stops at the share-count check, printing neither a secret nor a wrong list,
if and only if fewer than `k` shares are supplied; two shares with `k = 3` do. -/
theorem reconstruct_notEnough_iff (shares : List Share) (k : Int) :
    (reconstruct shares k = RunResult.notEnoughShares ↔ (shares.length : Int) < k)
      ∧ reconstruct [mkShare 1 7, mkShare 2 9] 3 = RunResult.notEnoughShares := by
  refine ⟨?_, by decide⟩
  unfold reconstruct
  by_cases h : (shares.length : Int) < k
  · simp [h]
  · simp [h]

/-- C8. All-correct shares: for the integer polynomial `P` with coefficient list `cs` of
degree at most `k - 1` and `n ≥ k` shares with pairwise distinct `x` and `y = P(x)`, the run
prints secret `P(0)` and an empty wrong list, and the winning inlier count is `n`.
(No lower bound on `k` is needed.) -/
theorem reconstruct_all_correct (k : Nat) (cs : List Int) (shares : List Share)
    (hdeg : cs.length ≤ k) (hk : k ≤ shares.length)
    (hnd : (shares.map (fun p => p.x)).Nodup)
    (hy : ∀ p ∈ shares, p.y = polyEval cs p.x) :
    reconstruct shares (k : Int) = RunResult.printed (polyEval cs 0) []
      ∧ (search shares (k : Int)).bestInliers = (shares.length : Int) := by
  have hex : ∃ t, IsSubset shares.length (k : Int) t ∧ validSubset shares t :=
    ⟨List.range k, isSubset_range _ _ hk,
      (candidate_all_correct k cs shares hdeg hnd hy _ (isSubset_range _ _ hk)).1⟩
  obtain ⟨L1, s, L2, hL, _, heq, _, _⟩ := search_of_valid shares (k : Int) hex
  have hs : IsSubset shares.length (k : Int) s :=
    (mem_combosInt_range _ _ _).mp (by rw [hL]; simp)
  have hc := (candidate_all_correct k cs shares hdeg hnd hy s hs).2
  unfold reconstruct
  rw [if_neg (by omega), heq, hc]
  simp only [wrongList_ones, and_self]

theorem reconstruct_all_correct_witness :
    [5, 2].length ≤ 3 ∧ 3 ≤ scenarioA.length ∧ (scenarioA.map (fun p => p.x)).Nodup
      ∧ (∀ p ∈ scenarioA, p.y = polyEval [5, 2] p.x)
      ∧ polyEval [5, 2] 0 = 5
      ∧ reconstruct scenarioA ((3 : Nat) : Int) = RunResult.printed (polyEval [5, 2] 0) []
      ∧ (search scenarioA ((3 : Nat) : Int)).bestInliers = (scenarioA.length : Int) :=
  ⟨by decide, by decide, by decide, by decide, by decide,
    reconstruct_all_correct 3 [5, 2] scenarioA (by decide) (by decide) (by decide) (by decide)⟩

/-- C9. Wrong-share list: when some size-`k` subset is valid, the run prints the selected
subset's secret and, as wrong list, the `x` of exactly those shares of the input, in input
order, whose `y` is not the integer value of the selected subset's interpolation at their `x`;
the list has `n` minus the winning inlier count entries. -/
theorem reconstruct_wrong_list (shares : List Share) (k : Int)
    (h : ∃ t, IsSubset shares.length k t ∧ validSubset shares t) :
    reconstruct shares k
      = RunResult.printed (search shares k).bestSecret
          ((shares.filter (fun p =>
              !isInlier (subsetXs shares (search shares k).bestSubset)
                (subsetYs shares (search shares k).bestSubset) p)).map (fun p => p.x))
    ∧ (((shares.filter (fun p =>
              !isInlier (subsetXs shares (search shares k).bestSubset)
                (subsetYs shares (search shares k).bestSubset) p)).map (fun p => p.x)).length
          : Int)
        = (shares.length : Int) - (search shares k).bestInliers := by
  obtain ⟨L1, s, L2, hL, hv, heq, _, _⟩ := search_of_valid shares k h
  obtain ⟨t, ht, _⟩ := h
  have hle := isSubset_le _ _ _ ht
  unfold reconstruct
  rw [if_neg (by omega), heq]
  simp only [candidate, inlierMask, inlierCount, countInliers_eq, wrongList_mask,
    length_filter_not, and_self]

theorem reconstruct_wrong_list_witness :
    (∃ t, IsSubset scenarioB.length 3 t ∧ validSubset scenarioB t) ∧
    (reconstruct scenarioB 3
      = RunResult.printed (search scenarioB 3).bestSecret
          ((scenarioB.filter (fun p =>
              !isInlier (subsetXs scenarioB (search scenarioB 3).bestSubset)
                (subsetYs scenarioB (search scenarioB 3).bestSubset) p)).map (fun p => p.x))
    ∧ (((scenarioB.filter (fun p =>
              !isInlier (subsetXs scenarioB (search scenarioB 3).bestSubset)
                (subsetYs scenarioB (search scenarioB 3).bestSubset) p)).map (fun p => p.x)).length
          : Int)
        = (scenarioB.length : Int) - (search scenarioB 3).bestInliers) :=
  ⟨⟨[0, 1, 2], by decide, by decide⟩,
    reconstruct_wrong_list scenarioB 3 ⟨[0, 1, 2], by decide, by decide⟩⟩

/-- C10. `interpolate_eval` evaluates the interpolating polynomial: for the integer polynomial
`P` with coefficient list `cs` of degree at most `k - 1`, `k` pairwise distinct integers `xs`
and `ys[i] = P(xs[i])`, every integer query `xq` gives the canonical pair `(P(xq), 1)`, and
every node `xs[i]` gives back exactly `ys[i]`. -/
theorem interpolate_eval_exact (k : Nat) (cs xs : List Int) (hlen : xs.length = k)
    (hdeg : cs.length ≤ k) (hnd : xs.Nodup) :
    (∀ xq : Int, interpolate_eval xs (xs.map (polyEval cs)) xq
        = { num := polyEval cs xq, den := 1 }) ∧
    (∀ i : Nat, i < k → interpolate_eval xs (xs.map (polyEval cs)) (xs.getD i 0)
        = { num := (xs.map (polyEval cs)).getD i 0, den := 1 }) := by
  have hall : ∀ xq : Int, interpolate_eval xs (xs.map (polyEval cs)) xq
      = { num := polyEval cs xq, den := 1 } := by
    intro xq
    exact interpolate_eval_poly cs xs (by omega) hnd xq
  refine ⟨hall, ?_⟩
  intro i hi
  rw [hall, getD_map_polyEval cs xs i (by omega)]

theorem interpolate_eval_exact_witness :
    [1, 2, 3].length = 3 ∧ [5, 2].length ≤ 3 ∧ [1, 2, 3].Nodup ∧
    ((∀ xq : Int, interpolate_eval [1, 2, 3] ([1, 2, 3].map (polyEval [5, 2])) xq
        = { num := polyEval [5, 2] xq, den := 1 }) ∧
    (∀ i : Nat, i < 3 →
      interpolate_eval [1, 2, 3] ([1, 2, 3].map (polyEval [5, 2])) ([1, 2, 3].getD i 0)
        = { num := ([1, 2, 3].map (polyEval [5, 2])).getD i 0, den := 1 })) :=
  ⟨by decide, by decide, by decide,
    interpolate_eval_exact 3 [5, 2] [1, 2, 3] (by decide) (by decide) (by decide)⟩

/-- C11. Canonical-form invariant: the two-argument constructor with `d ≠ 0`, and `add`, `sub`,
`mul` on canonical operands, and `div` on canonical operands with a divisor of non-zero
numerator, all return a canonical pair: `den ≥ 1`, `gcd(|num|, den) = 1`, zero as `(0, 1)`. -/
theorem fraction_results_canonical (n d : Int) (a b : Fraction) (hd : d ≠ 0)
    (ha : Fraction.Canonical a) (hb : Fraction.Canonical b) :
    Fraction.Canonical (Fraction.mk2 n d)
      ∧ Fraction.Canonical (Fraction.add a b)
      ∧ Fraction.Canonical (Fraction.sub a b)
      ∧ Fraction.Canonical (Fraction.mul a b)
      ∧ (b.num ≠ 0 → Fraction.Canonical (Fraction.div a b)) := by
  have hbn := hb.num_ne_zero_iff
  rw [ha.eq_ofRat_val, hb.eq_ofRat_val, Fraction.mk2_eq_ofRat n d hd, Fraction.add_ofRat,
    Fraction.sub_ofRat, Fraction.mul_ofRat]
  refine ⟨Fraction.canonical_ofRat _, Fraction.canonical_ofRat _, Fraction.canonical_ofRat _,
    Fraction.canonical_ofRat _, ?_⟩
  intro h
  rw [← hb.eq_ofRat_val] at h
  rw [Fraction.div_ofRat _ _ (hbn.mp h)]
  exact Fraction.canonical_ofRat _

theorem fraction_results_canonical_witness :
    (-4 : Int) ≠ 0 ∧ Fraction.Canonical { num := 1, den := 2 }
      ∧ Fraction.Canonical { num := -3, den := 4 }
      ∧ (Fraction.Canonical (Fraction.mk2 6 (-4))
      ∧ Fraction.Canonical (Fraction.add { num := 1, den := 2 } { num := -3, den := 4 })
      ∧ Fraction.Canonical (Fraction.sub { num := 1, den := 2 } { num := -3, den := 4 })
      ∧ Fraction.Canonical (Fraction.mul { num := 1, den := 2 } { num := -3, den := 4 })
      ∧ ((-3 : Int) ≠ 0 →
          Fraction.Canonical (Fraction.div { num := 1, den := 2 } { num := -3, den := 4 }))) :=
  ⟨by decide, by decide, by decide,
    fraction_results_canonical 6 (-4) { num := 1, den := 2 } { num := -3, den := 4 }
      (by decide) (by decide) (by decide)⟩

/-- C12, as stated, fails: `Fraction(1, 0)` returns a value, the pair `(1, 0)`. -/
theorem mk2_zero_den_returns : Fraction.mk2 1 0 = { num := 1, den := 0 } := by
  decide

/-- C12, amended. The two-argument constructor never fails: for every integer `n`,
`Fraction(n, 0)` returns the canonical zero `(0, 1)` when `n = 0` and the pair `(sign n, 0)`,
whose denominator is `0`, otherwise. -/
theorem mk2_zero_den (n : Int) :
    Fraction.mk2 n 0
      = if n = 0 then { num := 0, den := 1 } else { num := Int.sign n, den := 0 } :=
  Fraction.normalize_den_zero_eq n

/-- C13, as stated, fails: dividing the canonical `1/2` by the canonical zero returns a value,
the pair `(1, 0)`. -/
theorem div_by_zero_returns :
    Fraction.Canonical { num := 1, den := 2 } ∧ Fraction.Canonical { num := 0, den := 1 }
      ∧ Fraction.div { num := 1, den := 2 } { num := 0, den := 1 } = { num := 1, den := 0 } := by
  decide

/-- C13, amended. `Fraction::div` never fails: for every `a` and every divisor `(0, d)` with
numerator zero it returns the canonical zero `(0, 1)` when `a.num * d = 0` and the pair
`(sign (a.num * d), 0)`, whose denominator is `0`, otherwise. -/
theorem div_by_zero_num (a : Fraction) (d : Int) :
    Fraction.div a { num := 0, den := d }
      = if a.num * d = 0 then { num := 0, den := 1 }
        else { num := Int.sign (a.num * d), den := 0 } := by
  unfold Fraction.div
  simp only [mul_zero]
  exact Fraction.normalize_den_zero_eq (a.num * d)

/-- C14. Add/sub round trip: for canonical `a` and `b`, `sub(add(a, b), b)` is equal to `a`
under `operator==`. -/
theorem sub_add_round_trip (a b : Fraction) (ha : Fraction.Canonical a)
    (hb : Fraction.Canonical b) :
    Fraction.opEq (Fraction.sub (Fraction.add a b) b) a = true := by
  have h : Fraction.sub (Fraction.add a b) b = a := by
    conv_lhs => rw [ha.eq_ofRat_val, hb.eq_ofRat_val]
    rw [Fraction.add_ofRat, Fraction.sub_ofRat, add_sub_cancel_right, ← ha.eq_ofRat_val]
  rw [h]
  exact Fraction.opEq_self a

theorem sub_add_round_trip_witness :
    Fraction.Canonical { num := 1, den := 2 } ∧ Fraction.Canonical { num := -3, den := 4 }
      ∧ Fraction.opEq
          (Fraction.sub (Fraction.add { num := 1, den := 2 } { num := -3, den := 4 })
            { num := -3, den := 4 })
          { num := 1, den := 2 } = true :=
  ⟨by decide, by decide,
    sub_add_round_trip { num := 1, den := 2 } { num := -3, den := 4 } (by decide) (by decide)⟩

/-- C15. Mul/div round trip: for canonical `a` and `b` with `b.num ≠ 0`, negative `b`
included, `div(mul(a, b), b)` is equal to `a` under `operator==`. -/
theorem div_mul_round_trip (a b : Fraction) (ha : Fraction.Canonical a)
    (hb : Fraction.Canonical b) (hbn : b.num ≠ 0) :
    Fraction.opEq (Fraction.div (Fraction.mul a b) b) a = true := by
  have hv : Fraction.val b ≠ 0 := hb.num_ne_zero_iff.mp hbn
  have h : Fraction.div (Fraction.mul a b) b = a := by
    conv_lhs => rw [ha.eq_ofRat_val, hb.eq_ofRat_val]
    rw [Fraction.mul_ofRat, Fraction.div_ofRat _ _ hv, mul_div_assoc, div_self hv, mul_one,
      ← ha.eq_ofRat_val]
  rw [h]
  exact Fraction.opEq_self a

theorem div_mul_round_trip_witness :
    Fraction.Canonical { num := 1, den := 2 } ∧ Fraction.Canonical { num := -3, den := 4 }
      ∧ (-3 : Int) ≠ 0
      ∧ Fraction.opEq
          (Fraction.div (Fraction.mul { num := 1, den := 2 } { num := -3, den := 4 })
            { num := -3, den := 4 })
          { num := 1, den := 2 } = true :=
  ⟨by decide, by decide, by decide,
    div_mul_round_trip { num := 1, den := 2 } { num := -3, den := 4 }
      (by decide) (by decide) (by decide)⟩

/-- C16. `parseBase` rejects exactly the invalid literals: it fails with the invalid-digit
error if and only if some character other than `_` and space has no digit value or a digit
value that is at least the base; otherwise it returns the non-negative integer written by the
remaining digits, most significant first, in that base. -/
theorem parseBase_spec (s : String) (base : Int) :
    (parseBase s base = Except.error "Invalid digit for base" ↔ invalidLiteral s.toList base)
    ∧ (¬ invalidLiteral s.toList base →
        parseBase s base = Except.ok (positional base (literalDigits s.toList))
          ∧ 0 ≤ positional base (literalDigits s.toList)) := by
  obtain ⟨h1, h2⟩ := parseBaseLoop_spec base s.toList 0
  unfold parseBase
  refine ⟨⟨fun h => ?_, h1⟩, fun h => ?_⟩
  · by_contra hcon
    rw [(h2 hcon).1] at h
    exact absurd h (by simp)
  · obtain ⟨h3, h4⟩ := h2 h
    refine ⟨?_, positional_nonneg base _ h4⟩
    rw [h3]
    simp

/-- C17. Robust recovery under a majority bound: for the integer polynomial `P` with
coefficient list `cs` of degree at most `k - 1` and shares with pairwise distinct `x`, of which
`g` satisfy `y = P(x)` and `e = n - g` do not, `g ≥ k + e` makes the run print secret `P(0)`
and, as wrong list, exactly the `x` of the shares with `y ≠ P(x)`, with winning inlier count
`g`. (No lower bound on `k` is needed.) -/
theorem robust_recovery (k : Nat) (cs : List Int) (shares : List Share)
    (hdeg : cs.length ≤ k) (hnd : (shares.map (fun p => p.x)).Nodup)
    (hmaj : k + (shares.length - shares.countP (fun p => decide (p.y = polyEval cs p.x)))
      ≤ shares.countP (fun p => decide (p.y = polyEval cs p.x))) :
    reconstruct shares (k : Int)
        = RunResult.printed (polyEval cs 0)
            ((shares.filter (fun p => decide (p.y ≠ polyEval cs p.x))).map (fun p => p.x))
      ∧ (search shares (k : Int)).bestInliers
        = ((shares.countP (fun p => decide (p.y = polyEval cs p.x)) : Nat) : Int) := by
  obtain ⟨ht0, hgood0⟩ := good_prefix_isSubset k shares
    (fun p => decide (p.y = polyEval cs p.x)) (by omega)
  have hgood0' : ∀ pos ∈ ((List.range shares.length).filter
      (fun i => decide ((shareAt shares i).y = polyEval cs (shareAt shares i).x))).take k,
      (shareAt shares pos).y = polyEval cs (shareAt shares pos).x :=
    fun pos hpos => of_decide_eq_true (hgood0 pos hpos)
  obtain ⟨hv0, _, hin0⟩ := candidate_all_good k cs shares hdeg hnd _ ht0 hgood0'
  obtain ⟨L1, s, L2, hL, hv, heq, h1, h2⟩ :=
    search_of_valid shares (k : Int) ⟨_, ht0, hv0⟩
  have hs : IsSubset shares.length (k : Int) s :=
    (mem_combosInt_range _ _ _).mp (by rw [hL]; simp)
  have hscore0 : inlierCount shares
      (((List.range shares.length).filter
        (fun i => decide ((shareAt shares i).y = polyEval cs (shareAt shares i).x))).take k)
      = ((shares.countP (fun p => decide (p.y = polyEval cs p.x)) : Nat) : Int) := by
    rw [inlierCount_eq_countP]
    simp only [hin0]
    rw [countP_range_shareAt shares (fun p => decide (p.y = polyEval cs p.x))]
  have hge : ((shares.countP (fun p => decide (p.y = polyEval cs p.x)) : Nat) : Int)
      ≤ inlierCount shares s := by
    rw [← hscore0]
    have hmem : ((List.range shares.length).filter
        (fun i => decide ((shareAt shares i).y = polyEval cs (shareAt shares i).x))).take k
        ∈ L1 ++ s :: L2 := hL ▸ (mem_combosInt_range _ _ _).mpr ht0
    rcases List.mem_append.mp hmem with hin | hin
    · exact le_of_lt (h1 _ hin hv0)
    · rcases List.mem_cons.mp hin with heq0 | hin'
      · rw [heq0]
      · exact h2 _ hin' hv0
  have hsgood : ∀ pos ∈ s, (shareAt shares pos).y = polyEval cs (shareAt shares pos).x := by
    intro b hb
    by_contra hbad
    have hbound := bad_subset_bound k cs shares hdeg hnd s hs b hb hbad
    have hsplit := countP_split
      (fun i => isInlier (subsetXs shares s) (subsetYs shares s) (shareAt shares i))
      (fun i => decide ((shareAt shares i).y = polyEval cs (shareAt shares i).x))
      (List.range shares.length)
    have hnot := countP_not_add shares (fun p => decide (p.y = polyEval cs p.x))
    rw [← countP_range_shareAt shares
      (fun q => !decide (q.y = polyEval cs q.x))] at hnot
    rw [inlierCount_eq_countP] at hge
    omega
  obtain ⟨_, hsec, hin⟩ := candidate_all_good k cs shares hdeg hnd s hs hsgood
  have hle := isSubset_le _ _ _ hs
  constructor
  · unfold reconstruct
    rw [if_neg (by omega), heq]
    simp only [candidate, inlierMask, countInliers_eq, wrongList_mask, hsec]
    congr 2
    apply List.filter_congr
    intro p _
    rw [hin p]
    by_cases h : p.y = polyEval cs p.x <;> simp [h]
  · rw [heq]
    simp only [candidate]
    rw [inlierCount_eq_countP]
    simp only [hin]
    rw [countP_range_shareAt shares (fun p => decide (p.y = polyEval cs p.x))]

theorem robust_recovery_witness :
    [5, 2].length ≤ 2 ∧ (majorityShares.map (fun p => p.x)).Nodup
      ∧ 2 + (majorityShares.length
            - majorityShares.countP (fun p => decide (p.y = polyEval [5, 2] p.x)))
          ≤ majorityShares.countP (fun p => decide (p.y = polyEval [5, 2] p.x))
      ∧ (reconstruct majorityShares ((2 : Nat) : Int)
          = RunResult.printed (polyEval [5, 2] 0)
              ((majorityShares.filter (fun p => decide (p.y ≠ polyEval [5, 2] p.x))).map
                (fun p => p.x))
        ∧ (search majorityShares ((2 : Nat) : Int)).bestInliers
          = ((majorityShares.countP (fun p => decide (p.y = polyEval [5, 2] p.x)) : Nat)
              : Int)) :=
  ⟨by decide, by decide, by decide,
    robust_recovery 2 [5, 2] majorityShares (by decide) (by decide) (by decide)⟩

/-- C18. Subset enumeration: `dfs(0, k)` reaches its evaluation step exactly with the strictly
increasing `k`-tuples of positions below `n`, each once, `C(n, k)` times in total, in
lexicographic order; removing the pruning test changes nothing, and the accumulator after the
search is the evaluation step folded over these tuples. (No bound on `k` is needed.) -/
theorem dfs_enumerates (n k : Nat) :
    (∀ t, t ∈ visits n (k : Int) ↔ IsSubset n (k : Int) t)
      ∧ (visits n (k : Int)).Nodup
      ∧ (visits n (k : Int)).length = Nat.choose n k
      ∧ (visits n (k : Int)).Pairwise (List.Lex (· < ·))
      ∧ visitsUnpruned n (k : Int) = visits n (k : Int)
      ∧ ∀ shares : List Share, shares.length = n →
          search shares (k : Int)
            = (visits n (k : Int)).foldl (fun st s => evalSubset shares s st) Best.init := by
  have hv : visits n (k : Int) = combosInt (k : Int) (List.range n) := dfsVisits_eq n k true
  have hu : visitsUnpruned n (k : Int) = combosInt (k : Int) (List.range n) :=
    dfsVisits_eq n k false
  have hlex := combosInt_lex (k : Int) (List.range n) (List.pairwise_lt_range n)
  rw [hu, hv]
  refine ⟨fun t => mem_combosInt_range n k t, nodup_of_lex _ hlex, ?_, hlex, rfl, ?_⟩
  · have hneg : ¬ ((k : Int) < 0) := by omega
    simp only [combosInt, hneg, if_false, Int.toNat_ofNat, combos_length, List.length_range]
  · intro shares hn
    subst hn
    exact dfs_budget shares k

/-- C19. Arithmetic agrees with the rationals: with `val f = f.num / f.den` in `ℚ`,
`val (Fraction(n, d)) = n / d` for `d ≠ 0`, and on canonical `a`, `b` the operations `add`,
`sub`, `mul` compute the sum, difference and product of the values, and `div` their quotient
when `b.num ≠ 0`. -/
theorem fraction_val_arith (n d : Int) (a b : Fraction) (hd : d ≠ 0)
    (ha : Fraction.Canonical a) (hb : Fraction.Canonical b) :
    Fraction.val (Fraction.mk2 n d) = (n : ℚ) / (d : ℚ)
      ∧ Fraction.val (Fraction.add a b) = Fraction.val a + Fraction.val b
      ∧ Fraction.val (Fraction.sub a b) = Fraction.val a - Fraction.val b
      ∧ Fraction.val (Fraction.mul a b) = Fraction.val a * Fraction.val b
      ∧ (b.num ≠ 0 → Fraction.val (Fraction.div a b) = Fraction.val a / Fraction.val b) := by
  have hbn := hb.num_ne_zero_iff
  refine ⟨?_, ?_, ?_, ?_, ?_⟩
  · rw [Fraction.mk2_eq_ofRat n d hd, Fraction.val_ofRat]
  · conv_lhs => rw [ha.eq_ofRat_val, hb.eq_ofRat_val]
    rw [Fraction.add_ofRat, Fraction.val_ofRat]
  · conv_lhs => rw [ha.eq_ofRat_val, hb.eq_ofRat_val]
    rw [Fraction.sub_ofRat, Fraction.val_ofRat]
  · conv_lhs => rw [ha.eq_ofRat_val, hb.eq_ofRat_val]
    rw [Fraction.mul_ofRat, Fraction.val_ofRat]
  · intro h
    conv_lhs => rw [ha.eq_ofRat_val, hb.eq_ofRat_val]
    rw [Fraction.div_ofRat _ _ (hbn.mp h), Fraction.val_ofRat]

theorem fraction_val_arith_witness :
    (-4 : Int) ≠ 0 ∧ Fraction.Canonical { num := 1, den := 2 }
      ∧ Fraction.Canonical { num := -3, den := 4 }
      ∧ (Fraction.val (Fraction.mk2 6 (-4)) = ((6 : Int) : ℚ) / ((-4 : Int) : ℚ)
      ∧ Fraction.val (Fraction.add { num := 1, den := 2 } { num := -3, den := 4 })
          = Fraction.val { num := 1, den := 2 } + Fraction.val { num := -3, den := 4 }
      ∧ Fraction.val (Fraction.sub { num := 1, den := 2 } { num := -3, den := 4 })
          = Fraction.val { num := 1, den := 2 } - Fraction.val { num := -3, den := 4 }
      ∧ Fraction.val (Fraction.mul { num := 1, den := 2 } { num := -3, den := 4 })
          = Fraction.val { num := 1, den := 2 } * Fraction.val { num := -3, den := 4 }
      ∧ (({ num := -3, den := 4 } : Fraction).num ≠ 0 →
          Fraction.val (Fraction.div { num := 1, den := 2 } { num := -3, den := 4 })
            = Fraction.val { num := 1, den := 2 } / Fraction.val { num := -3, den := 4 })) :=
  ⟨by decide, by decide, by decide,
    fraction_val_arith 6 (-4) { num := 1, den := 2 } { num := -3, den := 4 }
      (by decide) (by decide) (by decide)⟩

/-- C20. The winning subset's own shares are never reported wrong: with pairwise distinct `x`
and some valid size-`k` subset, every share of the selected subset passes the inlier test, the
reported inlier count is at least `k`, and no `x` of the selected subset is in the printed
wrong list. -/
theorem selected_shares_are_inliers (shares : List Share) (k : Int)
    (hnd : (shares.map (fun p => p.x)).Nodup)
    (h : ∃ t, IsSubset shares.length k t ∧ validSubset shares t) :
    (∀ pos ∈ (search shares k).bestSubset,
        isInlier (subsetXs shares (search shares k).bestSubset)
          (subsetYs shares (search shares k).bestSubset) (shareAt shares pos) = true)
      ∧ k ≤ (search shares k).bestInliers
      ∧ ∃ wrong, reconstruct shares k = RunResult.printed (search shares k).bestSecret wrong
          ∧ ∀ pos ∈ (search shares k).bestSubset, (shareAt shares pos).x ∉ wrong := by
  obtain ⟨L1, s, L2, hL, hv, heq, _, _⟩ := search_of_valid shares k h
  have hs : IsSubset shares.length k s :=
    (mem_combosInt_range _ _ _).mp (by rw [hL]; simp)
  have hbest : (search shares k).bestSubset = s := by rw [heq]; rfl
  have hin := isInlier_of_mem shares k s hnd hs
  have hle := isSubset_le _ _ _ hs
  rw [hbest]
  refine ⟨hin, ?_, ?_⟩
  · rw [heq]
    simp only [candidate, inlierCount, countInliers_eq]
    have hsub := (sublist_range_iff shares.length s).mpr ⟨hs.2.1, hs.2.2⟩
    have h1 := List.Sublist.countP_le
      (fun t => isInlier (subsetXs shares s) (subsetYs shares s) (shareAt shares t)) hsub
    have h2 : s.countP
        (fun t => isInlier (subsetXs shares s) (subsetYs shares s) (shareAt shares t))
        = s.length := List.countP_eq_length.mpr hin
    have h3 := hs.1
    omega
  · refine ⟨(shares.filter (fun p =>
        !isInlier (subsetXs shares s) (subsetYs shares s) p)).map (fun p => p.x), ?_, ?_⟩
    · unfold reconstruct
      rw [if_neg (by omega), heq]
      simp only [candidate, inlierMask, countInliers_eq, wrongList_mask]
    · intro pos hpos hmem
      obtain ⟨p, hp, hpx⟩ := List.mem_map.mp hmem
      obtain ⟨hp1, hp2⟩ := List.mem_filter.mp hp
      have hpe : p = shareAt shares pos :=
        share_eq_of_x shares hnd p _ hp1 (shareAt_mem shares pos (hs.2.2 pos hpos)) hpx
      rw [hpe, hin pos hpos] at hp2
      simp at hp2

theorem selected_shares_are_inliers_witness :
    (scenarioB.map (fun p => p.x)).Nodup
      ∧ (∃ t, IsSubset scenarioB.length 3 t ∧ validSubset scenarioB t)
      ∧ ((∀ pos ∈ (search scenarioB 3).bestSubset,
          isInlier (subsetXs scenarioB (search scenarioB 3).bestSubset)
            (subsetYs scenarioB (search scenarioB 3).bestSubset) (shareAt scenarioB pos) = true)
        ∧ (3 : Int) ≤ (search scenarioB 3).bestInliers
        ∧ ∃ wrong, reconstruct scenarioB 3
              = RunResult.printed (search scenarioB 3).bestSecret wrong
            ∧ ∀ pos ∈ (search scenarioB 3).bestSubset, (shareAt scenarioB pos).x ∉ wrong) :=
  ⟨by decide, ⟨[0, 1, 2], by decide, by decide⟩,
    selected_shares_are_inliers scenarioB 3 (by decide) ⟨[0, 1, 2], by decide, by decide⟩⟩
